import Mathlib

/-!
Verification of the BlenderVPGEditor core: a shallow embedding of the
VPG text codec (`parse_vpg_text`, `mesh_to_vpg_text`,
`_merge_geometry_with_existing` from `import_vpg.py`), of the internal
text-document store (`text_editor.py`), of the watcher's orphan cleanup
and geometry-to-text sync (`mesh_watcher.py`) and of the file-system
wrapper (`utils.read_file`).

Python strings are modelled as `List Char`; the Python string
primitives used by the source (`str.strip`, `str.split`,
`str.splitlines`, `str.lower`, `str.isdigit`, `float(...)`,
`int(...)`) are modelled character by character on the ASCII fragment
the format uses.  Numeric literals are modelled as exact decimals
(mantissa times a power of ten) instead of IEEE doubles; like Python's
`repr` of a float, the modelled printer emits a token that the
modelled `float(...)` parses back to the identical value.  Fallible
code paths are modelled with `Option`/`Except`; the Python functions
under study catch per-line errors internally and are total, which the
embedding reflects by being built from total functions.
-/

namespace VPG

/-! ### Characters: the Python character predicates used by the source -/

/-- Whitespace recognised by Python's `str.strip()` / `str.split()`
(space, tab, newline, carriage return, vertical tab, form feed). -/
def isPySpace (c : Char) : Bool :=
  c.toNat == 32 || c.toNat == 9 || c.toNat == 10 || c.toNat == 13 ||
    c.toNat == 11 || c.toNat == 12

/-- Python's `str.lower()` on one character (ASCII fragment). -/
def pyLower (c : Char) : Char :=
  if 65 ≤ c.toNat ∧ c.toNat ≤ 90 then Char.ofNat (c.toNat + 32) else c

/-- ASCII decimal digit test, modelling the digits accepted by Python's
`int(...)`/`float(...)` and reported by `str.isdigit()`. -/
def isDig (c : Char) : Bool :=
  48 ≤ c.toNat && c.toNat ≤ 57

/-! ### Python `str.strip` / `str.split` / `str.splitlines` on `List Char` -/

/-- Python's `s.strip()`: drop leading and trailing whitespace. -/
def pyStrip (s : List Char) : List Char :=
  ((s.dropWhile isPySpace).reverse.dropWhile isPySpace).reverse

/-- Python's `s.strip(',')`: drop leading and trailing commas. -/
def stripCommas (s : List Char) : List Char :=
  ((s.dropWhile (· == ',')).reverse.dropWhile (· == ',')).reverse

/-- Helper for `pySplit`: accumulates the current (reversed) word. -/
def pyWordsAux : List Char → List Char → List (List Char)
  | acc, [] => if acc = [] then [] else [acc.reverse]
  | acc, c :: cs =>
    if isPySpace c then
      if acc = [] then pyWordsAux [] cs else acc.reverse :: pyWordsAux [] cs
    else pyWordsAux (c :: acc) cs

/-- Python's `s.split()` (no separator argument): maximal runs of
non-whitespace characters, never producing empty words. -/
def pySplit (s : List Char) : List (List Char) :=
  pyWordsAux [] s

/-- Split on `'\n'` in the style of `String.splitOn`: always at least
one piece. -/
def splitOnNl : List Char → List (List Char)
  | [] => [[]]
  | c :: cs =>
    if c = '\n' then [] :: splitOnNl cs
    else
      match splitOnNl cs with
      | [] => [[c]]
      | p :: ps => (c :: p) :: ps

/-- Python's `s.splitlines()` restricted to `'\n'` terminators: like
splitting on `'\n'` but a trailing terminator yields no extra empty
line, and the empty string yields no lines. -/
def pySplitlines (s : List Char) : List (List Char) :=
  if s = [] then []
  else
    let ps := splitOnNl s
    if ps.getLast? = some [] then ps.dropLast else ps

/-- Python's `"\n".join(lines)`. -/
def joinNl : List (List Char) → List Char
  | [] => []
  | l :: ls => l ++ (ls.map (fun m => '\n' :: m)).flatten

/-! ### Numeric tokens: Python `str(int)`, `int(...)`, `float(...)` -/

/-- Fuel-driven digit accumulator (structurally recursive so that the
kernel can evaluate it); `natDigits` supplies enough fuel. -/
def natDigitsCore : Nat → Nat → List Char → List Char
  | 0, _, acc => acc
  | fuel + 1, n, acc =>
    if n < 10 then Char.ofNat (48 + n) :: acc
    else natDigitsCore fuel (n / 10) (Char.ofNat (48 + n % 10) :: acc)

/-- The decimal digits of a natural number, most significant first:
Python's `str(n)` for `n ≥ 0`. -/
def natDigits (n : Nat) : List Char :=
  natDigitsCore (n + 1) n []

/-- Value of a digit string (most significant first). -/
def digitsVal (s : List Char) : Nat :=
  s.foldl (fun a c => 10 * a + (c.toNat - 48)) 0

/-- Python's `str(i)` / `f"{i}"` for an `int`. -/
def intStr (i : Int) : List Char :=
  if i < 0 then '-' :: natDigits i.natAbs else natDigits i.natAbs

/-- Parse a non-empty all-digit string, as inside Python's `int(...)`. -/
def parseDigits? (s : List Char) : Option Nat :=
  if s ≠ [] ∧ s.all isDig then some (digitsVal s) else none

/-- Split an optional leading `+`/`-` sign from a numeric token. -/
def splitSign : List Char → Int × List Char
  | [] => ((1 : Int), ([] : List Char))
  | c :: r =>
    if c = '+' then (1, r) else if c = '-' then (-1, r) else (1, c :: r)

/-- Python's `int(token)` on a token with no surrounding whitespace:
an optional sign followed by one or more ASCII digits (digit-group
underscores are not modelled). -/
def pyInt? (s : List Char) : Option Int :=
  (parseDigits? (splitSign s).2).map (fun (n : Nat) => (splitSign s).1 * (n : Int))

/-- An exact decimal number `mant * 10 ^ dexp`, the model of the IEEE
doubles the source stores for vertex coordinates. -/
structure PyFloat where
  mant : Int
  dexp : Int
deriving DecidableEq, Repr

/-- Parse the exponent suffix of a float token: empty, or `e`/`E`
followed by an optionally signed digit string. -/
def parseExp? : List Char → Option Int
  | [] => some 0
  | c :: er =>
    if c = 'e' ∨ c = 'E' then
      (parseDigits? (splitSign er).2).map (fun (n : Nat) => (splitSign er).1 * (n : Int))
    else none

/-- Python's `float(token)` on a whitespace-free token, restricted to
finite decimal literals: optional sign, digits with an optional single
decimal point (at least one digit overall), and an optional `e`/`E`
exponent. (`inf`/`nan` literals and digit-group underscores are not
modelled.) -/
def parseFloatTok (s : List Char) : Option PyFloat :=
  let s1 := (splitSign s).2
  let mp := s1.takeWhile (fun c => ¬(c = 'e' ∨ c = 'E'))
  let re := s1.dropWhile (fun c => ¬(c = 'e' ∨ c = 'E'))
  let ip := mp.takeWhile (fun c => c ≠ '.')
  let fp := (mp.dropWhile (fun c => c ≠ '.')).drop 1
  if ip.all isDig ∧ fp.all isDig ∧ ip ++ fp ≠ [] then
    (parseExp? re).map
      (fun e => ⟨(splitSign s).1 * (digitsVal (ip ++ fp) : Int), e - (fp.length : Int)⟩)
  else none

/-- The textual form the model's serializer gives a coordinate:
`<mant>e<dexp>`.  Python prints a float through `repr`, whose defining
property (shared with this printer) is that `float(...)` parses the
token back to the identical stored value. -/
def printFloat (v : PyFloat) : List Char :=
  intStr v.mant ++ 'e' :: intStr v.dexp

/-- A 3-D position as stored for one vertex. -/
structure Pos3 where
  x : PyFloat
  y : PyFloat
  z : PyFloat
deriving DecidableEq, Repr

/-! ### Association lists: the model of Python `dict` with string keys -/

/-- Python `key in d` for a dict modelled as an insertion-ordered
association list. -/
def hasKey {β : Type _} (m : List (List Char × β)) (k : List Char) : Bool :=
  m.any (fun p => p.1 == k)

/-- Python `d.get(key)` / `d[key]`. -/
def alookup {β : Type _} (m : List (List Char × β)) (k : List Char) : Option β :=
  (m.find? (fun p => p.1 == k)).map (fun p => p.2)

/-- Python `d[key] = v`: replace in place if present, else append
(insertion order preserved, as for a Python dict). -/
def aset {β : Type _} (m : List (List Char × β)) (k : List Char) (v : β) :
    List (List Char × β) :=
  if hasKey m k then m.map (fun p => if p.1 == k then (k, v) else p)
  else m ++ [(k, v)]

/-- Python `del d[key]` (guarded by `key in d` at every call site, so
plain removal). -/
def aremove {β : Type _} (m : List (List Char × β)) (k : List Char) :
    List (List Char × β) :=
  m.filter (fun p => ¬(p.1 == k))

/-! ### The parser: `parse_vpg_text` from `import_vpg.py` -/

/-- The structural result of `parse_vpg_text(filetext, return_maps=True)`:
the `vertices`, `indices`, `node_index_to_id` and `node_id_to_index`
accumulators of the source (`return_maps=False` merely omits the last
two from the returned tuple). -/
structure GeometryDoc where
  vertices : List Pos3
  indices : List (Int × Int × Int)
  node_index_to_id : List (List Char)
  node_id_to_index : List (List Char × Nat)
deriving DecidableEq, Repr

/-- The empty accumulators the parser starts from. -/
def emptyDoc : GeometryDoc := ⟨[], [], [], []⟩

/-- `normalize_token` from `parse_vpg_text`:
`token.strip().strip(',').strip()`. -/
def normalize_token (token : List Char) : List Char :=
  pyStrip (stripCommas (pyStrip token))

/-- One iteration of the `for raw in filetext.splitlines()` loop of
`parse_vpg_text`: strip the line, skip blanks and `#` comments, then
dispatch on the lower-cased first token (`n…` = vertex line, `e…` =
element line, anything else ignored).  Per-line `ValueError`s from
`float(...)`/`int(...)` are modelled by the `Option` parsers; a `none`
reproduces the `except ValueError: continue`. -/
def processLine (st : GeometryDoc) (raw : List Char) : GeometryDoc :=
  let line := pyStrip raw
  if line = [] ∨ line.head? = some '#' then st
  else
    match pySplit line with
    | [] => st
    | p0 :: rest =>
      let key := p0.map pyLower
      if key.head? = some 'n' then
        -- vertex line: needs at least 4 tokens, three parsable floats,
        -- and a node id not seen before (first occurrence wins)
        if (p0 :: rest).length < 4 then st
        else
          match rest with
          | t1 :: t2 :: t3 :: _ =>
            match parseFloatTok t1, parseFloatTok t2, parseFloatTok t3 with
            | some x, some y, some z =>
              let node_id := key
              if hasKey st.node_id_to_index node_id then st
              else
                { st with
                  vertices := st.vertices ++ [⟨x, y, z⟩],
                  node_index_to_id := st.node_index_to_id ++ [node_id],
                  node_id_to_index :=
                    st.node_id_to_index ++ [(node_id, st.vertices.length)] }
            | _, _, _ => st
          | _ => st
      else if key.head? = some 'e' then
        -- element line: needs at least 3 index tokens; all three must
        -- parse as ints and resolve (1-based to 0-based) in bounds,
        -- otherwise the whole face is dropped
        if rest.length < 3 then st
        else
          match rest with
          | t1 :: t2 :: t3 :: _ =>
            match pyInt? (normalize_token t1), pyInt? (normalize_token t2),
                pyInt? (normalize_token t3) with
            | some i1, some i2, some i3 =>
              if 0 ≤ i1 - 1 ∧ i1 - 1 < (st.vertices.length : Int) ∧
                  0 ≤ i2 - 1 ∧ i2 - 1 < (st.vertices.length : Int) ∧
                  0 ≤ i3 - 1 ∧ i3 - 1 < (st.vertices.length : Int) then
                { st with indices := st.indices ++ [(i1 - 1, i2 - 1, i3 - 1)] }
              else st
            | _, _, _ => st
          | _ => st
      else st

/-- `parse_vpg_text` from `import_vpg.py`: fold the per-line step over
`filetext.splitlines()`. -/
def parse_vpg_text (filetext : List Char) : GeometryDoc :=
  (pySplitlines filetext).foldl processLine emptyDoc

/-! ### The serializer: `mesh_to_vpg_text` from `import_vpg.py` -/

/-- One bmesh vertex as `mesh_to_vpg_text` sees it: the decoded
string content of the `node_id` layer (`none` when the layer is
missing for the mesh or decoding raised), and the local coordinate
`vert.co`.  The model assumes the id layer exists whenever `stamped`
is `some`, as `generate_mesh` creates it on every import. -/
structure BMVert where
  stamped : Option (List Char)
  co : Pos3
deriving DecidableEq, Repr

/-- A bmesh as `mesh_to_vpg_text` traverses it after
`verts.ensure_lookup_table()`: vertices in index order, and for each
face the `vert.index` list of its vertices. -/
structure BMesh where
  verts : List BMVert
  faces : List (List Int)
deriving DecidableEq, Repr

/-- The `node_id` local variable of the per-vertex loop after the
decode-and-strip block: `[]` plays the role of Python's falsy
`None`/`""` (layer missing, decode failure, empty or all-blank id). -/
def decodedId (v : BMVert) : List Char :=
  match v.stamped with
  | none => []
  | some s => if s = [] then [] else pyStrip s

/-- Python's `str.isdigit()` (ASCII digits). -/
def pyIsdigit (s : List Char) : Bool :=
  !s.isEmpty && s.all isDig

/-- `f"n{k}"`. -/
def nId (k : Nat) : List Char := 'n' :: natDigits k

/-- The scan state of `mesh_to_vpg_text`'s first vertex loop:
`vertex_entries`, `numeric_pattern`, `needs_renumber`, `seen_numeric`. -/
structure ScanSt where
  entries : List (BMVert × List Char)
  numeric_pattern : Bool
  needs_renumber : Bool
  seen_numeric : List (List Char)
deriving DecidableEq, Repr

/-- One iteration of `for idx, v in enumerate(bm.verts)` in
`mesh_to_vpg_text`: compute the vertex's effective id and update the
renumbering flags and the seen set. -/
def scanStep (idx : Nat) (st : ScanSt) (v : BMVert) : ScanSt :=
  let nid0 := decodedId v
  -- (node_id, numeric_pattern, needs_renumber) after the
  -- missing / invalid-pattern / case-normalization block
  let step1 : List Char × Bool × Bool :=
    if nid0 = [] then (nId (idx + 1), st.numeric_pattern, true)
    else if nid0.length < 2 ∨ ¬(nid0.head?.map pyLower = some 'n') ∨
        pyIsdigit (nid0.drop 1) = false then
      (nid0, false, st.needs_renumber)
    else if nid0 ≠ 'n' :: nid0.drop 1 then
      ('n' :: nid0.drop 1, st.numeric_pattern, true)
    else (nid0, st.numeric_pattern, st.needs_renumber)
  let node_id := step1.1
  let needs2 := if node_id ∈ st.seen_numeric then true else step1.2.2
  let needs3 := if node_id ≠ nId (idx + 1) then true else needs2
  { entries := st.entries ++ [(v, node_id)],
    numeric_pattern := step1.2.1,
    needs_renumber := needs3,
    seen_numeric := node_id :: st.seen_numeric }

/-- The whole first vertex loop, from index `idx`. -/
def scanVerts : Nat → ScanSt → List BMVert → ScanSt
  | _, st, [] => st
  | idx, st, v :: vs => scanVerts (idx + 1) (scanStep idx st v) vs

/-- Initial scan state. -/
def initScan : ScanSt := ⟨[], true, false, []⟩

/-- `vertex_entries` as emitted: the scan result, redone as a dense
renumbering `n1..nK` when `numeric_pattern and needs_renumber`. -/
def vertexEntries (verts : List BMVert) : List (BMVert × List Char) :=
  let st := scanVerts 0 initScan verts
  if st.numeric_pattern ∧ st.needs_renumber then
    st.entries.enum.map (fun p => (p.2.1, nId (p.1 + 1)))
  else st.entries

/-- The write-back into the vertices' id layers performed by the
renumber branch of `mesh_to_vpg_text` (both the `node_id` and the
`init_node_id` layer receive the new id; the model tracks the
`node_id` layer, the only one the serializer ever reads). -/
def writebackVerts (verts : List BMVert) : List BMVert :=
  let st := scanVerts 0 initScan verts
  if st.numeric_pattern ∧ st.needs_renumber then
    verts.enum.map (fun p => { p.2 with stamped := some (nId (p.1 + 1)) })
  else verts

/-- `f"{node_id} {co.x} {co.y} {co.z}"`. -/
def vline (nid : List Char) (co : Pos3) : List Char :=
  nid ++ ' ' :: (printFloat co.x ++ ' ' :: (printFloat co.y ++ ' ' :: printFloat co.z))

/-- The vertex lines of the serialization. -/
def vertexLinesOf (entries : List (BMVert × List Char)) : List (List Char) :=
  entries.map (fun p => vline p.2 p.1.co)

/-- The triangles one face contributes: a triangle verbatim, an n-gon
(n > 3) as a triangle fan anchored at its first vertex, anything
smaller nothing. -/
def faceTris : List Int → List (Int × Int × Int)
  | [a, b, c] => [(a, b, c)]
  | a :: rest =>
    if 2 < rest.length then (rest.zip (rest.drop 1)).map (fun p => (a, p.1, p.2))
    else []
  | [] => []

/-- `f"e{tri_counter} {a+1} {b+1} {c+1}"`. -/
def fline (k : Nat) (t : Int × Int × Int) : List Char :=
  'e' :: natDigits k ++ ' ' ::
    (intStr (t.1 + 1) ++ ' ' :: (intStr (t.2.1 + 1) ++ ' ' :: intStr (t.2.2 + 1)))

/-- The face lines of the serialization; `tri_counter` starts at 1 and
advances once per emitted line across all faces. -/
def faceLinesOf (faces : List (List Int)) : List (List Char) :=
  ((faces.map faceTris).flatten).enum.map (fun p => fline (p.1 + 1) p.2)

/-- The `lines` accumulator of `mesh_to_vpg_text` just before joining:
vertex lines then face lines. -/
def vpgLines (bm : BMesh) : List (List Char) :=
  vertexLinesOf (vertexEntries bm.verts) ++ faceLinesOf bm.faces

/-- The `geometry_indices` loop of `_merge_geometry_with_existing`:
the indices of the lines whose stripped form is non-blank, not a `#`
comment, and whose first character lower-cases to `n` or `e`. -/
def geometryIndicesOf (base_lines : List (List Char)) : List Nat :=
  (base_lines.enum.filter (fun p =>
    let stripped := pyStrip p.2
    ¬(stripped = []) ∧ ¬(stripped.head? = some '#') ∧
      (stripped.head?.map pyLower = some 'n' ∨
        stripped.head?.map pyLower = some 'e'))).map (fun p => p.1)

/-- `_merge_geometry_with_existing` from `import_vpg.py`. -/
def _merge_geometry_with_existing (base_text : List Char)
    (geometry_lines : List (List Char)) : List Char :=
  let base_lines := pySplitlines base_text
  if geometry_lines = [] then base_text
  else
    let geometry_indices := geometryIndicesOf base_lines
    if geometry_indices = [] then
      -- no geometry block: append, blank-separated from a non-blank last line
      let r1 :=
        if base_lines ≠ [] ∧ pyStrip (base_lines.getLastD []) ≠ []
        then base_lines ++ [[]] else base_lines
      joinNl (r1 ++ geometry_lines)
    else
      let first_idx := geometry_indices.headD 0
      let last_idx := geometry_indices.getLastD 0
      let pre := base_lines.take first_idx
      let suffix := base_lines.drop (last_idx + 1)
      -- `geometry_lines` is known non-empty here, so the source's
      -- `and geometry_lines` conjuncts are omitted
      let r1 := if pre ≠ [] ∧ pyStrip (pre.getLastD []) ≠ [] then pre ++ [[]] else pre
      let r2 := r1 ++ geometry_lines
      let r3 :=
        if suffix ≠ [] then
          if pyStrip (suffix.headD []) ≠ [] ∧ pyStrip (geometry_lines.getLastD []) ≠ []
          then r2 ++ [[]] ++ suffix else r2 ++ suffix
        else r2
      joinNl r3

/-- `mesh_to_vpg_text` from `import_vpg.py` (text value only; the
renumbering write-back into the mesh is `writebackVerts`).  The merge
step runs exactly when `base_text` is truthy; the model's merge is
total, so the source's fall-back to the plain join on a merge
exception is dead. -/
def mesh_to_vpg_text (bm : BMesh) (base_text : Option (List Char)) : List Char :=
  let lines := vpgLines bm
  match base_text with
  | some bt => if bt ≠ [] then _merge_geometry_with_existing bt lines else joinNl lines
  | none => joinNl lines

/-- The mesh `generate_mesh` builds from a parsed document (identity
object transform): every vertex is stamped with its parsed node id,
and every stored face triple becomes a face over those indices. -/
def docToMesh (d : GeometryDoc) : BMesh :=
  { verts := (d.vertices.zip d.node_index_to_id).map
      (fun p => { stamped := some p.2, co := p.1 }),
    faces := d.indices.map (fun t => [t.1, t.2.1, t.2.2]) }

/-- Serialization of a parsed document: import it into a mesh and run
`mesh_to_vpg_text` with no base text. -/
def serializeDoc (d : GeometryDoc) : List Char :=
  mesh_to_vpg_text (docToMesh d) none

/-! ### Document store and watcher state (`text_editor.py`, `mesh_watcher.py`) -/

/-- `to_short_filename` = `os.path.basename`: the component after the
last `/` (POSIX form). -/
def to_short_filename (filename : List Char) : List Char :=
  (filename.reverse.takeWhile (fun c => ¬(c = '/'))).reverse

/-- The scene's two custom properties used by the store:
`SCENE_SHORT_TO_FULL_FILENAME` (short name → full path) and
`SCENE_PREV_TEXTS` (short name → last seen text, value possibly
Python `None`). -/
structure Scene where
  shortToFull : List (List Char × List Char)
  prevTexts : List (List Char × Option (List Char))
deriving DecidableEq, Repr

/-- A mesh datablock as the watcher sees it: its bmesh content, the
`MESH_VPG_FILE_PATH` custom property and the `MESH_DATA` cached text
(`none` models both a missing property and a non-string value). -/
structure VMesh where
  bm : BMesh
  vpgPath : Option (List Char)
  meshData : Option (List Char)
deriving DecidableEq, Repr

/-- An object in `bpy.data.objects`: whether it is a `'MESH'` object
and its mesh datablock (possibly `None`). -/
structure VObj where
  isMesh : Bool
  mesh : Option VMesh
deriving DecidableEq, Repr

/-- The state the store and watcher read and write: `bpy.data.texts`
(name → buffer content), the scene properties, `bpy.data.objects`,
and `text_editor.history_stack` (each entry a one-key dict
`{short_filename: text}`). -/
structure BState where
  texts : List (List Char × List Char)
  scene : Scene
  objects : List VObj
  history : List (List Char × List Char)
deriving DecidableEq, Repr

/-- `text_editor.write_int_file`: record the short-name mapping,
create-or-overwrite the text buffer (the cursor juggling is
view-state only), and initialize the previous-text slot to `None`
when absent. -/
def write_int_file (st : BState) (filename text : List Char) : BState :=
  let short := to_short_filename filename
  { st with
    texts := aset st.texts short text,
    scene :=
      { shortToFull := aset st.scene.shortToFull short filename,
        prevTexts :=
          if hasKey st.scene.prevTexts short then st.scene.prevTexts
          else aset st.scene.prevTexts short none } }

/-- `text_editor.read_int_file`: the buffer's content, or `None`. -/
def read_int_file (st : BState) (filename : List Char) : Option (List Char) :=
  alookup st.texts (to_short_filename filename)

/-- `text_editor.remove_int_file`: drop the text buffer, the
previous-text entry and the short-name mapping entry keyed by the
file's basename (each guarded by membership in the source; removal of
an absent key is a no-op here).  `history_stack` is not touched. -/
def remove_int_file (st : BState) (filename : List Char) : BState :=
  let short := to_short_filename filename
  { st with
    texts := aremove st.texts short,
    scene :=
      { shortToFull := aremove st.scene.shortToFull short,
        prevTexts := aremove st.scene.prevTexts short } }

/-- `mesh_watcher._collect_active_vpg_paths`: the paths carried by the
`MESH_VPG_FILE_PATH` property of any live mesh object (truthy values
only).  The source builds a set; a list with membership is the model. -/
def _collect_active_vpg_paths (st : BState) : List (List Char) :=
  st.objects.filterMap (fun o =>
    if o.isMesh then
      match o.mesh with
      | some m =>
        match m.vpgPath with
        | some p => if p ≠ [] then some p else none
        | none => none
      | none => none
    else none)

/-- `mesh_watcher._cleanup_orphan_internal_texts`: no-op on an empty
(or absent) mapping; otherwise snapshot the mapping items and call
`remove_int_file` on every full path not in the active set. -/
def _cleanup_orphan_internal_texts (st : BState) : BState :=
  if st.scene.shortToFull = [] then st
  else
    let active := _collect_active_vpg_paths st
    st.scene.shortToFull.foldl
      (fun acc p => if p.2 ∈ active then acc else remove_int_file acc p.2) st

/-- Result of `mesh_watcher._sync_object_text`: the returned Bool, the
mesh (whose id layers the serializer may have rewritten and whose
`MESH_DATA` cache may have been updated) and the store state. -/
structure SyncResult where
  changed : Bool
  mesh : VMesh
  st : BState
deriving DecidableEq, Repr

/-- The `base_text` (equal to the `old_text`) of
`_sync_object_text`: the mesh's cached `MESH_DATA` string when it is a
string, else the internal buffer's current content (`read_int_file`),
else `None`.  (When the cache is a string the source sets both
`base_text` and `old_text` to it, so the two variables always agree.) -/
def syncOldText (st : BState) (m : VMesh) (vpg_file_path : List Char) :
    Option (List Char) :=
  match m.meshData with
  | some s => some s
  | none => read_int_file st vpg_file_path

/-- `mesh_watcher._sync_object_text` for an object whose mesh is
present: serialize the mesh against the cached text (or, absent a
cache, the internal buffer), and on a change write the new text into
the mesh cache, the internal buffer and the previous-texts map
(`show_int_file` is view-state only).  Python's `new_text == old_text`
with `old_text = None` is false, so `some new_text = old_text`
reproduces the comparison. -/
def _sync_object_text (st : BState) (m : VMesh) : SyncResult :=
  match m.vpgPath with
  | none => ⟨false, m, st⟩
  | some vpg_file_path =>
    if vpg_file_path = [] then ⟨false, m, st⟩
    else
      let base_text := syncOldText st m vpg_file_path
      let new_text := mesh_to_vpg_text m.bm base_text
      let m1 : VMesh :=
        { m with bm := { verts := writebackVerts m.bm.verts, faces := m.bm.faces } }
      let old_text := base_text
      if some new_text = old_text then ⟨false, m1, st⟩
      else
        let m2 := { m1 with meshData := some new_text }
        let st1 := write_int_file st vpg_file_path new_text
        let prev2 :=
          aset st1.scene.prevTexts (to_short_filename vpg_file_path) (some new_text)
        let st2 := { st1 with scene := { st1.scene with prevTexts := prev2 } }
        ⟨true, m2, st2⟩

/-! ### `utils.read_file` -/

/-- What opening-and-reading a path can do: yield decoded text, raise
an `IOError`/`OSError` (file missing, unreadable, ...), or raise a
`UnicodeDecodeError` because the bytes are not valid UTF-8. -/
inductive FileOutcome where
  | ok (content : List Char)
  | ioError
  | decodeError
deriving DecidableEq, Repr

/-- `utils.read_file`: `content = None; try: content = open(...).read()
except IOError: log` — the content on success, `None` when an
`IOError` was raised and caught, and a propagated exception
(`Except.error`) when reading raises outside `IOError`, e.g. a
`UnicodeDecodeError` on non-UTF-8 bytes. -/
def read_file (fs : List Char → FileOutcome) (filepath : List Char) :
    Except Unit (Option (List Char)) :=
  match fs filepath with
  | FileOutcome.ok c => Except.ok (some c)
  | FileOutcome.ioError => Except.ok none
  | FileOutcome.decodeError => Except.error ()

/-! ## Face-line processing helpers (shared by the C3 and C9 results) -/

/-- The in-bounds test the parser applies to all three resolved
indices of a face line. -/
def triInBounds (n : Nat) (i1 i2 i3 : Int) : Prop :=
  0 ≤ i1 - 1 ∧ i1 - 1 < (n : Int) ∧ 0 ≤ i2 - 1 ∧ i2 - 1 < (n : Int) ∧
    0 ≤ i3 - 1 ∧ i3 - 1 < (n : Int)

instance (n : Nat) (i1 i2 i3 : Int) : Decidable (triInBounds n i1 i2 i3) := by
  unfold triInBounds
  infer_instance

/-! ### Line classification (used to state the parser claims) -/

/-- The token list of a line as the parser computes it:
`line.strip().split()`. -/
def lineParts (raw : List Char) : List (List Char) :=
  pySplit (pyStrip raw)

/-- The lower-cased first token of a line (`key` in the source); `[]`
when the line has no tokens. -/
def lineKey (raw : List Char) : List Char :=
  ((lineParts raw).headD []).map pyLower

/-- A line the parser's vertex branch considers: non-blank after
stripping, not a `#` comment, first token lower-casing to `n…`. -/
def IsVertexKeyed (raw : List Char) : Prop :=
  ¬(pyStrip raw = [] ∨ (pyStrip raw).head? = some '#') ∧
    (lineKey raw).head? = some 'n'

instance (raw : List Char) : Decidable (IsVertexKeyed raw) := by
  unfold IsVertexKeyed
  infer_instance

/-- A well-formed vertex line: vertex-keyed, at least four tokens, and
tokens 1–3 parse as floats. -/
def ValidVertexLine (raw : List Char) : Prop :=
  IsVertexKeyed raw ∧ 4 ≤ (lineParts raw).length ∧
    ∀ t ∈ ((lineParts raw).drop 1).take 3, parseFloatTok t ≠ none

instance (raw : List Char) : Decidable (ValidVertexLine raw) := by
  unfold ValidVertexLine
  infer_instance

/-- A malformed vertex line in the sense of the spec: vertex-keyed but
with fewer than four tokens or a bad float token among tokens 1–3. -/
def MalformedVertexLine (raw : List Char) : Prop :=
  IsVertexKeyed raw ∧ ((lineParts raw).length < 4 ∨
    ∃ t ∈ ((lineParts raw).drop 1).take 3, parseFloatTok t = none)

instance (raw : List Char) : Decidable (MalformedVertexLine raw) := by
  unfold MalformedVertexLine
  infer_instance


/-! ### Per-vertex id decision of the serializer's scan -/

/-- The id `scanStep` settles on for one vertex; it depends only on
the vertex and its index: fresh `n<idx+1>` for a missing/blank id, the
stripped stamped id verbatim when it fails the `n<digits>` pattern,
and the lowercase-normalized id when it matches. -/
def scanId (idx : Nat) (v : BMVert) : List Char :=
  if decodedId v = [] then nId (idx + 1)
  else if (decodedId v).length < 2 ∨ ¬((decodedId v).head?.map pyLower = some 'n') ∨
      pyIsdigit ((decodedId v).drop 1) = false then decodedId v
  else 'n' :: (decodedId v).drop 1

/-- A stamped id that fails the `n<digits>` pattern entirely: present
and non-blank, but not `n` (case-insensitive) followed by digits. -/
def InvalidStamped (v : BMVert) : Prop :=
  decodedId v ≠ [] ∧ ((decodedId v).length < 2 ∨
    ¬((decodedId v).head?.map pyLower = some 'n') ∨
    pyIsdigit ((decodedId v).drop 1) = false)

instance (v : BMVert) : Decidable (InvalidStamped v) := by
  unfold InvalidStamped
  infer_instance


/-! ### Well-formed node ids and the parser invariant (for the C1 result) -/

/-- The shape of every node id the parser stores: a non-empty token
with no whitespace whose first character is `n` and which lower-casing
leaves fixed (the parser stores `token.lower()` of a split word whose
lower-cased first character is `n`). -/
def WfId (id : List Char) : Prop :=
  id ≠ [] ∧ id.head? = some 'n' ∧ (∀ c ∈ id, isPySpace c = false) ∧
    id.map pyLower = id

instance (id : List Char) : Decidable (WfId id) := by
  unfold WfId
  infer_instance

/-- The serializer's `n<digits>` pattern for an id that starts with a
lowercase `n`: at least two characters, everything after the first a
digit. -/
def ValidPat (id : List Char) : Prop :=
  2 ≤ id.length ∧ pyIsdigit (id.drop 1) = true

instance (id : List Char) : Decidable (ValidPat id) := by
  unfold ValidPat
  infer_instance

/-- The dense id sequence `n<k>, n<k+1>, ..., n<k+n-1>`. -/
def denseIds (k n : Nat) : List (List Char) :=
  (List.range' k n).map nId

/-- The invariant `parse_vpg_text` maintains over its accumulators:
as many ids as vertices, every id well-formed, ids pairwise distinct,
the id-to-index dict keyed exactly by the stored ids, and every stored
face index in `[0, vertex_count)`. -/
def DocInv (st : GeometryDoc) : Prop :=
  st.node_index_to_id.length = st.vertices.length ∧
  (∀ id ∈ st.node_index_to_id, WfId id) ∧
  st.node_index_to_id.Nodup ∧
  st.node_id_to_index.map Prod.fst = st.node_index_to_id ∧
  (∀ t ∈ st.indices, 0 ≤ t.1 ∧ t.1 < (st.vertices.length : Int) ∧
    0 ≤ t.2.1 ∧ t.2.1 < (st.vertices.length : Int) ∧
    0 ≤ t.2.2 ∧ t.2.2 < (st.vertices.length : Int))

/-! ## Theorems -/

theorem toNat_ofNat_small {n : Nat} (h : n < 0xd800) : (Char.ofNat n).toNat = n := by
  unfold Char.ofNat
  rw [dif_pos (Or.inl h)]
  rfl

theorem pyLower_toNat (c : Char) :
    (pyLower c).toNat = if 65 ≤ c.toNat ∧ c.toNat ≤ 90 then c.toNat + 32 else c.toNat := by
  unfold pyLower
  by_cases h : 65 ≤ c.toNat ∧ c.toNat ≤ 90
  · rw [if_pos h, if_pos h, toNat_ofNat_small (by omega)]
  · rw [if_neg h, if_neg h]

theorem pyLower_of_notUpper {c : Char} (h : ¬(65 ≤ c.toNat ∧ c.toNat ≤ 90)) :
    pyLower c = c := by
  unfold pyLower
  rw [if_neg h]

theorem pyLower_idem (c : Char) : pyLower (pyLower c) = pyLower c := by
  have h1 := pyLower_toNat c
  have h : ¬(65 ≤ (pyLower c).toNat ∧ (pyLower c).toNat ≤ 90) := by
    by_cases h2 : 65 ≤ c.toNat ∧ c.toNat ≤ 90 <;> simp [h2] at h1 <;> omega
  exact pyLower_of_notUpper h

theorem isPySpace_iff (c : Char) :
    isPySpace c = true ↔
      (c.toNat = 32 ∨ c.toNat = 9 ∨ c.toNat = 10 ∨ c.toNat = 13 ∨
        c.toNat = 11 ∨ c.toNat = 12) := by
  unfold isPySpace
  simp [Nat.beq_eq_true_eq]
  tauto

theorem isDig_iff (c : Char) : isDig c = true ↔ 48 ≤ c.toNat ∧ c.toNat ≤ 57 := by
  unfold isDig
  simp

theorem not_isPySpace_of_isDig {c : Char} (h : isDig c = true) : isPySpace c = false := by
  rw [isDig_iff] at h
  by_contra hc
  rw [Bool.not_eq_false, isPySpace_iff] at hc
  omega

theorem pyLower_of_isDig {c : Char} (h : isDig c = true) : pyLower c = c := by
  rw [isDig_iff] at h
  exact pyLower_of_notUpper (by omega)

/-! ### Lemmas about the numeric token model -/

theorem natDigitsCore_eq (n : Nat) :
    ∀ fuel acc, n < fuel →
      natDigitsCore fuel n acc = natDigitsCore (n + 1) n [] ++ acc := by
  induction n using Nat.strong_induction_on with
  | _ n ih =>
    intro fuel acc hf
    match fuel, hf with
    | f + 1, _ =>
      show (if n < 10 then Char.ofNat (48 + n) :: acc
        else natDigitsCore f (n / 10) (Char.ofNat (48 + n % 10) :: acc)) = _
      by_cases h : n < 10
      · rw [if_pos h]
        show _ = (if n < 10 then [Char.ofNat (48 + n)]
          else natDigitsCore n (n / 10) (Char.ofNat (48 + n % 10) :: [])) ++ acc
        rw [if_pos h]
        rfl
      · rw [if_neg h]
        have hd : n / 10 < n := Nat.div_lt_self (by omega) (by omega)
        rw [ih (n / 10) hd f _ (by omega)]
        show _ = (if n < 10 then [Char.ofNat (48 + n)]
          else natDigitsCore n (n / 10) (Char.ofNat (48 + n % 10) :: [])) ++ acc
        rw [if_neg h, ih (n / 10) hd n _ (by omega)]
        simp

theorem natDigits_eq (n : Nat) :
    natDigits n = if n < 10 then [Char.ofNat (48 + n)]
      else natDigits (n / 10) ++ [Char.ofNat (48 + n % 10)] := by
  unfold natDigits
  show (if n < 10 then Char.ofNat (48 + n) :: []
    else natDigitsCore n (n / 10) (Char.ofNat (48 + n % 10) :: [])) = _
  by_cases h : n < 10
  · rw [if_pos h, if_pos h]
  · rw [if_neg h, if_neg h]
    have hd : n / 10 < n := Nat.div_lt_self (by omega) (by omega)
    rw [natDigitsCore_eq (n / 10) n _ (by omega)]

theorem natDigits_ne_nil (n : Nat) : natDigits n ≠ [] := by
  rw [natDigits_eq]
  by_cases h : n < 10 <;> simp [h]

theorem natDigits_mem_toNat (n : Nat) :
    ∀ c ∈ natDigits n, 48 ≤ c.toNat ∧ c.toNat ≤ 57 := by
  induction n using Nat.strong_induction_on with
  | _ n ih =>
    intro c hc
    rw [natDigits_eq] at hc
    by_cases h : n < 10
    · rw [if_pos h] at hc
      simp at hc
      subst hc
      rw [toNat_ofNat_small (by omega)]
      omega
    · rw [if_neg h] at hc
      rcases List.mem_append.mp hc with h1 | h1
      · exact ih (n / 10) (Nat.div_lt_self (by omega) (by omega)) c h1
      · simp at h1
        subst h1
        have : n % 10 < 10 := Nat.mod_lt _ (by omega)
        rw [toNat_ofNat_small (by omega)]
        omega

theorem natDigits_all_isDig (n : Nat) : (natDigits n).all isDig = true := by
  rw [List.all_eq_true]
  intro c hc
  rw [isDig_iff]
  exact natDigits_mem_toNat n c hc

theorem digitsVal_append (xs ys : List Char) :
    digitsVal (xs ++ ys) = ys.foldl (fun a c => 10 * a + (c.toNat - 48)) (digitsVal xs) := by
  unfold digitsVal
  rw [List.foldl_append]

theorem digitsVal_natDigits (n : Nat) : digitsVal (natDigits n) = n := by
  induction n using Nat.strong_induction_on with
  | _ n ih =>
    rw [natDigits_eq]
    by_cases h : n < 10
    · rw [if_pos h]
      unfold digitsVal
      simp [toNat_ofNat_small (show 48 + n < 0xd800 by omega)]
    · rw [if_neg h]
      rw [digitsVal_append, ih (n / 10) (Nat.div_lt_self (by omega) (by omega))]
      have : n % 10 < 10 := Nat.mod_lt _ (by omega)
      simp [toNat_ofNat_small (show 48 + n % 10 < 0xd800 by omega)]
      omega

theorem natDigits_inj {m n : Nat} (h : natDigits m = natDigits n) : m = n := by
  have := digitsVal_natDigits m
  rw [h, digitsVal_natDigits] at this
  omega

theorem parseDigits?_natDigits (n : Nat) : parseDigits? (natDigits n) = some n := by
  unfold parseDigits?
  rw [if_pos ⟨natDigits_ne_nil n, natDigits_all_isDig n⟩, digitsVal_natDigits]

theorem natDigits_head_not_sign (n : Nat) (c : Char) (r : List Char)
    (h : natDigits n = c :: r) : ¬(c = '+') ∧ ¬(c = '-') := by
  have hmem : c ∈ natDigits n := by rw [h]; exact List.mem_cons_self _ _
  have hd := natDigits_mem_toNat n c hmem
  constructor <;> intro he <;> subst he <;> revert hd <;> decide

theorem splitSign_natDigits (n : Nat) (rest : List Char) :
    splitSign (natDigits n ++ rest) = (1, natDigits n ++ rest) := by
  rcases hd : natDigits n with _ | ⟨c, r⟩
  · exact absurd hd (natDigits_ne_nil n)
  · have hs := natDigits_head_not_sign n c r hd
    unfold splitSign
    simp [hs.1, hs.2]

theorem splitSign_intStr (i : Int) (rest : List Char) :
    splitSign (intStr i ++ rest) =
      (if i < 0 then -1 else 1, natDigits i.natAbs ++ rest) := by
  unfold intStr
  by_cases h : i < 0
  · rw [if_pos h, if_pos h]
    show splitSign ('-' :: (natDigits i.natAbs ++ rest)) = _
    simp [splitSign]
  · rw [if_neg h, if_neg h]
    exact splitSign_natDigits _ _

theorem sign_mul_natAbs (i : Int) : (if i < 0 then (-1 : Int) else 1) * i.natAbs = i := by
  rcases Int.natAbs_eq i with h1 | h1 <;> split <;> omega

theorem pyInt?_intStr (i : Int) : pyInt? (intStr i) = some i := by
  unfold pyInt?
  have hs := splitSign_intStr i []
  simp only [List.append_nil] at hs
  rw [hs, parseDigits?_natDigits]
  show some ((if i < 0 then (-1 : Int) else 1) * (i.natAbs : Int)) = some i
  rw [sign_mul_natAbs i]

theorem pyInt?_natDigits (n : Nat) : pyInt? (natDigits n) = some (n : Int) := by
  unfold pyInt?
  have hs := splitSign_natDigits n []
  simp only [List.append_nil] at hs
  rw [hs, parseDigits?_natDigits]
  show some ((1 : Int) * (n : Int)) = some (n : Int)
  rw [one_mul]

theorem takeWhile_append_stop {p : Char → Bool} {xs : List Char} (y : Char) (ys : List Char)
    (hall : ∀ c ∈ xs, p c = true) (hy : p y = false) :
    (xs ++ y :: ys).takeWhile p = xs := by
  induction xs with
  | nil => simp [List.takeWhile_cons, hy]
  | cons a as ih =>
    have ha := hall a (List.mem_cons_self _ _)
    simp only [List.cons_append, List.takeWhile_cons, ha]
    simp [ih (fun c hc => hall c (List.mem_cons_of_mem _ hc))]

theorem dropWhile_append_stop {p : Char → Bool} {xs : List Char} (y : Char) (ys : List Char)
    (hall : ∀ c ∈ xs, p c = true) (hy : p y = false) :
    (xs ++ y :: ys).dropWhile p = y :: ys := by
  induction xs with
  | nil => simp [List.dropWhile_cons, hy]
  | cons a as ih =>
    have ha := hall a (List.mem_cons_self _ _)
    simp only [List.cons_append, List.dropWhile_cons, ha]
    simp [ih (fun c hc => hall c (List.mem_cons_of_mem _ hc))]

theorem takeWhile_all {p : Char → Bool} {xs : List Char}
    (hall : ∀ c ∈ xs, p c = true) : xs.takeWhile p = xs := by
  induction xs with
  | nil => rfl
  | cons a as ih =>
    simp only [List.takeWhile_cons, hall a (List.mem_cons_self _ _)]
    simp [ih (fun c hc => hall c (List.mem_cons_of_mem _ hc))]

theorem dropWhile_all {p : Char → Bool} {xs : List Char}
    (hall : ∀ c ∈ xs, p c = true) : xs.dropWhile p = [] := by
  induction xs with
  | nil => rfl
  | cons a as ih =>
    simp only [List.dropWhile_cons, hall a (List.mem_cons_self _ _)]
    simp [ih (fun c hc => hall c (List.mem_cons_of_mem _ hc))]

theorem parseExp?_intStr (d : Int) : parseExp? ('e' :: intStr d) = some d := by
  have hs := splitSign_intStr d []
  simp only [List.append_nil] at hs
  show (if ('e' : Char) = 'e' ∨ ('e' : Char) = 'E' then
      (parseDigits? (splitSign (intStr d)).2).map
        (fun (n : Nat) => (splitSign (intStr d)).1 * (n : Int))
    else none) = some d
  rw [if_pos (Or.inl rfl), hs, parseDigits?_natDigits]
  show some ((if d < 0 then (-1 : Int) else 1) * (d.natAbs : Int)) = some d
  rw [sign_mul_natAbs d]

theorem parseFloatTok_printFloat (v : PyFloat) :
    parseFloatTok (printFloat v) = some v := by
  obtain ⟨m, d⟩ := v
  unfold printFloat parseFloatTok
  simp only
  rw [show intStr m ++ 'e' :: intStr d = intStr m ++ ('e' :: intStr d) from rfl,
    splitSign_intStr m ('e' :: intStr d)]
  simp only
  have hdig : ∀ c ∈ natDigits m.natAbs, (decide ¬(c = 'e' ∨ c = 'E')) = true := by
    intro c hc
    have hn := natDigits_mem_toNat m.natAbs c hc
    simp only [decide_eq_true_eq]
    rintro (he | he) <;> subst he <;> revert hn <;> decide
  have hestop : (decide ¬(('e' : Char) = 'e' ∨ ('e' : Char) = 'E')) = false := by decide
  rw [takeWhile_append_stop _ _ hdig hestop, dropWhile_append_stop _ _ hdig hestop]
  have hnodot : ∀ c ∈ natDigits m.natAbs, (decide (c ≠ '.')) = true := by
    intro c hc
    have hn := natDigits_mem_toNat m.natAbs c hc
    simp only [ne_eq, decide_eq_true_eq]
    intro he
    subst he
    revert hn
    decide
  rw [takeWhile_all hnodot, dropWhile_all hnodot]
  simp only [List.drop_nil, List.append_nil]
  rw [if_pos ⟨natDigits_all_isDig _, by simp, by simp [natDigits_ne_nil]⟩]
  rw [parseExp?_intStr]
  show some (PyFloat.mk
      ((if m < 0 then (-1 : Int) else 1) * (digitsVal (natDigits m.natAbs) : Int))
      (d - (([] : List Char).length : Int))) = some ⟨m, d⟩
  rw [digitsVal_natDigits, sign_mul_natAbs m]
  norm_num

/-! ### Lemmas about strip / split / splitlines -/

theorem pyStrip_eq_self {l : List Char}
    (hh : ∀ hd, l.head? = some hd → isPySpace hd = false)
    (hl : ∀ lst, l.getLast? = some lst → isPySpace lst = false) :
    pyStrip l = l := by
  unfold pyStrip
  have h1 : l.dropWhile isPySpace = l := by
    cases l with
    | nil => rfl
    | cons a as =>
      rw [List.dropWhile_cons, hh a rfl]
      simp
  rw [h1]
  have h2 : l.reverse.dropWhile isPySpace = l.reverse := by
    cases hr : l.reverse with
    | nil => rfl
    | cons a as =>
      have : l.getLast? = some a := by
        rw [← List.head?_reverse, hr]
        rfl
      rw [List.dropWhile_cons, hl a this]
      simp
  rw [h2, List.reverse_reverse]

theorem dropWhile_eq_self_of_head {p : Char → Bool} {l : List Char}
    (hh : ∀ hd, l.head? = some hd → p hd = false) :
    l.dropWhile p = l := by
  cases l with
  | nil => rfl
  | cons a as =>
    rw [List.dropWhile_cons, hh a rfl]
    simp

theorem stripCommas_eq_self {l : List Char}
    (hh : ∀ hd, l.head? = some hd → (hd == ',') = false)
    (hl : ∀ lst, l.getLast? = some lst → (lst == ',') = false) :
    stripCommas l = l := by
  unfold stripCommas
  rw [dropWhile_eq_self_of_head hh]
  have h2 : l.reverse.dropWhile (· == ',') = l.reverse := by
    apply dropWhile_eq_self_of_head
    intro hd hhd
    rw [List.head?_reverse] at hhd
    exact hl hd hhd
  rw [h2, List.reverse_reverse]

theorem pyWordsAux_nil (acc : List Char) :
    pyWordsAux acc [] = if acc = [] then [] else [acc.reverse] := rfl

theorem pyWordsAux_cons (acc : List Char) (c : Char) (cs : List Char) :
    pyWordsAux acc (c :: cs) =
      if isPySpace c then
        if acc = [] then pyWordsAux [] cs else acc.reverse :: pyWordsAux [] cs
      else pyWordsAux (c :: acc) cs := rfl

theorem pyWordsAux_stop {w : List Char} (hw : ∀ c ∈ w, isPySpace c = false) :
    ∀ acc, pyWordsAux acc w =
      if acc.reverse ++ w = [] then [] else [acc.reverse ++ w] := by
  induction w with
  | nil =>
    intro acc
    rw [pyWordsAux_nil]
    by_cases h : acc = [] <;> simp [h]
  | cons c cs ih =>
    intro acc
    rw [pyWordsAux_cons, hw c (List.mem_cons_self _ _)]
    simp only [Bool.false_eq_true, if_false]
    rw [ih (fun d hd => hw d (List.mem_cons_of_mem _ hd)) (c :: acc)]
    simp

theorem pyWordsAux_sep {w : List Char} {sep : Char} (hw : ∀ c ∈ w, isPySpace c = false)
    (hsep : isPySpace sep = true) (r : List Char) :
    ∀ acc, pyWordsAux acc (w ++ sep :: r) =
      if acc.reverse ++ w = [] then pyWordsAux [] r
      else (acc.reverse ++ w) :: pyWordsAux [] r := by
  induction w with
  | nil =>
    intro acc
    show pyWordsAux acc (sep :: r) = _
    rw [pyWordsAux_cons, if_pos hsep]
    by_cases h : acc = [] <;> simp [h]
  | cons c cs ih =>
    intro acc
    show pyWordsAux acc (c :: (cs ++ sep :: r)) = _
    rw [pyWordsAux_cons, hw c (List.mem_cons_self _ _)]
    simp only [Bool.false_eq_true, if_false]
    rw [ih (fun d hd => hw d (List.mem_cons_of_mem _ hd)) (c :: acc)]
    simp

theorem pySplit_single {w : List Char} (hw : ∀ c ∈ w, isPySpace c = false)
    (hne : w ≠ []) : pySplit w = [w] := by
  unfold pySplit
  rw [pyWordsAux_stop hw []]
  simp [hne]

theorem pySplit_sep {w : List Char} {sep : Char} (hw : ∀ c ∈ w, isPySpace c = false)
    (hne : w ≠ []) (hsep : isPySpace sep = true) (r : List Char) :
    pySplit (w ++ sep :: r) = w :: pySplit r := by
  unfold pySplit
  rw [pyWordsAux_sep hw hsep r []]
  simp [hne]

theorem pyWordsAux_words (s : List Char) :
    ∀ acc, (∀ c ∈ acc, isPySpace c = false) →
      ∀ w ∈ pyWordsAux acc s, w ≠ [] ∧ ∀ c ∈ w, isPySpace c = false := by
  induction s with
  | nil =>
    intro acc hacc w hw
    rw [pyWordsAux_nil] at hw
    by_cases h : acc = []
    · simp [h] at hw
    · rw [if_neg h] at hw
      simp at hw
      subst hw
      constructor
      · simp [h]
      · intro c hc
        exact hacc c (List.mem_reverse.mp hc)
  | cons c cs ih =>
    intro acc hacc w hw
    rw [pyWordsAux_cons] at hw
    by_cases hsp : isPySpace c
    · rw [if_pos hsp] at hw
      by_cases h : acc = []
      · rw [if_pos h] at hw
        exact ih [] (by simp) w hw
      · rw [if_neg h] at hw
        rcases List.mem_cons.mp hw with h1 | h1
        · subst h1
          constructor
          · simp [h]
          · intro d hd
            exact hacc d (List.mem_reverse.mp hd)
        · exact ih [] (by simp) w h1
    · simp only [hsp, if_false] at hw
      refine ih (c :: acc) ?_ w hw
      intro d hd
      rcases List.mem_cons.mp hd with h1 | h1
      · subst h1
        exact eq_false_of_ne_true hsp
      · exact hacc d h1

theorem pySplit_words {s : List Char} :
    ∀ w ∈ pySplit s, w ≠ [] ∧ ∀ c ∈ w, isPySpace c = false :=
  pyWordsAux_words s [] (by simp)

theorem splitOnNl_cons (c : Char) (cs : List Char) :
    splitOnNl (c :: cs) =
      if c = '\n' then [] :: splitOnNl cs
      else
        match splitOnNl cs with
        | [] => [[c]]
        | p :: ps => (c :: p) :: ps := rfl

theorem splitOnNl_ne_nil (s : List Char) : splitOnNl s ≠ [] := by
  cases s with
  | nil => simp [splitOnNl]
  | cons c cs =>
    rw [splitOnNl_cons]
    by_cases h : c = '\n'
    · simp [h]
    · rw [if_neg h]
      rcases hs : splitOnNl cs with _ | ⟨p, ps⟩ <;> simp

theorem splitOnNl_no_nl {s : List Char} (h : '\n' ∉ s) : splitOnNl s = [s] := by
  induction s with
  | nil => rfl
  | cons c cs ih =>
    rw [splitOnNl_cons]
    have hc : ¬(c = '\n') := fun he => h (he ▸ List.mem_cons_self _ _)
    rw [if_neg hc, ih (fun hm => h (List.mem_cons_of_mem _ hm))]

theorem splitOnNl_append {l : List Char} (h : '\n' ∉ l) (r : List Char) :
    splitOnNl (l ++ '\n' :: r) = l :: splitOnNl r := by
  induction l with
  | nil =>
    show splitOnNl ('\n' :: r) = [] :: splitOnNl r
    rw [splitOnNl_cons]
    simp
  | cons c cs ih =>
    show splitOnNl (c :: (cs ++ '\n' :: r)) = _
    rw [splitOnNl_cons]
    have hc : ¬(c = '\n') := fun he => h (he ▸ List.mem_cons_self _ _)
    rw [if_neg hc, ih (fun hm => h (List.mem_cons_of_mem _ hm))]

theorem joinNl_cons_cons (l m : List Char) (rest : List (List Char)) :
    joinNl (l :: m :: rest) = l ++ '\n' :: joinNl (m :: rest) := by
  simp [joinNl]

theorem getLast?_cons_of_ne {α : Type _} (a : α) {as : List α} (h : as ≠ []) :
    (a :: as).getLast? = as.getLast? := by
  cases as with
  | nil => exact absurd rfl h
  | cons b bs => rw [List.getLast?_cons_cons]

theorem pySplitlines_joinNl {ls : List (List Char)} (hne : ls ≠ [])
    (hnl : ∀ l ∈ ls, '\n' ∉ l) (hlast : ls.getLast? ≠ some []) :
    pySplitlines (joinNl ls) = ls := by
  induction ls with
  | nil => exact absurd rfl hne
  | cons l ls' ih =>
    cases ls' with
    | nil =>
      have hl : l ≠ [] := by
        intro he
        exact hlast (by simp [he])
      show pySplitlines (joinNl [l]) = [l]
      have : joinNl [l] = l := by simp [joinNl]
      rw [this]
      unfold pySplitlines
      rw [if_neg hl, splitOnNl_no_nl (hnl l (List.mem_cons_self _ _))]
      simp [hl]
    | cons m rest =>
      have hih : pySplitlines (joinNl (m :: rest)) = m :: rest :=
        ih (by simp) (fun x hx => hnl x (List.mem_cons_of_mem _ hx))
          (by
            intro hc
            apply hlast
            rw [List.getLast?_cons_cons]
            exact hc)
      have hjne : joinNl (m :: rest) ≠ [] := by
        intro he
        rw [he] at hih
        exact absurd hih.symm (by simp [pySplitlines])
      rw [joinNl_cons_cons]
      unfold pySplitlines
      rw [if_neg (by simp)]
      rw [splitOnNl_append (hnl l (List.mem_cons_self _ _))]
      unfold pySplitlines at hih
      rw [if_neg hjne] at hih
      have hsne := splitOnNl_ne_nil (joinNl (m :: rest))
      by_cases hcase : (splitOnNl (joinNl (m :: rest))).getLast? = some []
      · rw [if_pos hcase] at hih
        have hgl : (l :: splitOnNl (joinNl (m :: rest))).getLast? = some [] := by
          rw [getLast?_cons_of_ne _ hsne]
          exact hcase
        rw [if_pos hgl, List.dropLast_cons_of_ne_nil hsne, hih]
      · rw [if_neg hcase] at hih
        have hgl : ¬((l :: splitOnNl (joinNl (m :: rest))).getLast? = some []) := by
          rw [getLast?_cons_of_ne _ hsne]
          exact hcase
        rw [if_neg hgl, hih]

theorem printFloat_mem_toNat (v : PyFloat) :
    ∀ c ∈ printFloat v, c.toNat = 45 ∨ c.toNat = 101 ∨ (48 ≤ c.toNat ∧ c.toNat ≤ 57) := by
  intro c hc
  unfold printFloat at hc
  have hint : ∀ (i : Int), ∀ c ∈ intStr i,
      c.toNat = 45 ∨ (48 ≤ c.toNat ∧ c.toNat ≤ 57) := by
    intro i c hc
    unfold intStr at hc
    by_cases h : i < 0
    · rw [if_pos h] at hc
      rcases List.mem_cons.mp hc with h1 | h1
      · subst h1; left; rfl
      · right; exact natDigits_mem_toNat _ c h1
    · rw [if_neg h] at hc
      right; exact natDigits_mem_toNat _ c hc
  rcases List.mem_append.mp hc with h1 | h1
  · rcases hint v.mant c h1 with h2 | h2
    · exact Or.inl h2
    · exact Or.inr (Or.inr h2)
  · rcases List.mem_cons.mp h1 with h2 | h2
    · subst h2; exact Or.inr (Or.inl rfl)
    · rcases hint v.dexp c h2 with h3 | h3
      · exact Or.inl h3
      · exact Or.inr (Or.inr h3)

/-! ## Claim C8: `read_file` returns content or `None`, never raises -/

/-- C8 counterexample: the claim "`read_file` … never raises an
exception to its caller" is false.  `utils.read_file` catches only
`IOError`; when the underlying read raises outside that class — a
`UnicodeDecodeError` on a file whose bytes are not valid UTF-8 — the
exception propagates to the caller, modelled by `Except.error`. -/
theorem C8_read_file_counterexample :
    read_file (fun _ => FileOutcome.decodeError) [] = Except.error () := rfl

/-- C8 (amended): for every path, `read_file` returns the file's
content on a successful read and `None` when the read raises an
`IOError`; in neither of those cases does an exception reach the
caller.  (Errors outside `IOError`, such as decode errors, still
propagate.) -/
theorem C8_read_file_amended (fs : List Char → FileOutcome) (p : List Char) :
    (∀ c, fs p = FileOutcome.ok c → read_file fs p = Except.ok (some c)) ∧
    (fs p = FileOutcome.ioError → read_file fs p = Except.ok none) := by
  constructor
  · intro c hc
    unfold read_file
    rw [hc]
  · intro hc
    unfold read_file
    rw [hc]

/-- C8 witness: `read_file` at a concrete successful filesystem. -/
theorem C8_read_file_witness :
    read_file (fun _ => FileOutcome.ok ['a']) [] = Except.ok (some ['a']) :=
  (C8_read_file_amended (fun _ => FileOutcome.ok ['a']) []).1 ['a'] rfl

theorem processLine_face_drop (st : GeometryDoc) (raw p0 t1 t2 t3 : List Char)
    (ts : List (List Char))
    (hskip : ¬(pyStrip raw = [] ∨ (pyStrip raw).head? = some '#'))
    (hsplit : pySplit (pyStrip raw) = p0 :: t1 :: t2 :: t3 :: ts)
    (hkey : (p0.map pyLower).head? = some 'e')
    (hbad :
      pyInt? (normalize_token t1) = none ∨
      pyInt? (normalize_token t2) = none ∨
      pyInt? (normalize_token t3) = none ∨
      (∃ i1 i2 i3, pyInt? (normalize_token t1) = some i1 ∧
        pyInt? (normalize_token t2) = some i2 ∧
        pyInt? (normalize_token t3) = some i3 ∧
        ¬triInBounds st.vertices.length i1 i2 i3)) :
    processLine st raw = st := by
  have hnotn : ¬((p0.map pyLower).head? = some 'n') := by
    rw [hkey]
    intro h
    injection h with h
    exact absurd h (by decide)
  unfold processLine
  rw [if_neg hskip, hsplit]
  simp only [hkey, List.length_cons]
  rw [if_neg (by decide : ¬(some 'e' = some 'n')),
    if_neg (by omega : ¬(ts.length + 1 + 1 + 1 < 3))]
  rcases h1 : pyInt? (normalize_token t1) with _ | i1 <;>
    rcases h2 : pyInt? (normalize_token t2) with _ | i2 <;>
      rcases h3 : pyInt? (normalize_token t3) with _ | i3 <;>
        simp only []
  case some.some.some =>
    rw [if_pos trivial]
    have hcneg : ¬(0 ≤ i1 - 1 ∧ i1 - 1 < (st.vertices.length : Int) ∧
        0 ≤ i2 - 1 ∧ i2 - 1 < (st.vertices.length : Int) ∧
        0 ≤ i3 - 1 ∧ i3 - 1 < (st.vertices.length : Int)) := by
      intro hc
      rcases hbad with hb | hb | hb | ⟨j1, j2, j3, hj1, hj2, hj3, hj⟩
      · rw [hb] at h1; cases h1
      · rw [hb] at h2; cases h2
      · rw [hb] at h3; cases h3
      · rw [h1] at hj1
        rw [h2] at hj2
        rw [h3] at hj3
        injection hj1 with e1
        injection hj2 with e2
        injection hj3 with e3
        subst e1; subst e2; subst e3
        exact hj hc
    rw [if_neg hcneg]
  all_goals rfl

theorem processLine_face_push (st : GeometryDoc) (raw p0 t1 t2 t3 : List Char)
    (ts : List (List Char)) (i1 i2 i3 : Int)
    (hskip : ¬(pyStrip raw = [] ∨ (pyStrip raw).head? = some '#'))
    (hsplit : pySplit (pyStrip raw) = p0 :: t1 :: t2 :: t3 :: ts)
    (hkey : (p0.map pyLower).head? = some 'e')
    (h1 : pyInt? (normalize_token t1) = some i1)
    (h2 : pyInt? (normalize_token t2) = some i2)
    (h3 : pyInt? (normalize_token t3) = some i3)
    (hin : triInBounds st.vertices.length i1 i2 i3) :
    processLine st raw =
      { st with indices := st.indices ++ [(i1 - 1, i2 - 1, i3 - 1)] } := by
  have hnotn : ¬((p0.map pyLower).head? = some 'n') := by
    rw [hkey]
    intro h
    injection h with h
    exact absurd h (by decide)
  unfold processLine
  rw [if_neg hskip, hsplit]
  simp only [hkey, List.length_cons]
  rw [if_neg (by decide : ¬(some 'e' = some 'n')),
    if_neg (by omega : ¬(ts.length + 1 + 1 + 1 < 3)), h1, h2, h3]
  simp only []
  rw [if_pos trivial]
  unfold triInBounds at hin
  rw [if_pos hin]

/-! ## Claim C3: faces with bad tokens or out-of-range indices are dropped -/

/-- C3: for a face line (a line whose stripped form is non-blank, is
no comment, and whose lower-cased first token starts with `e`), if any
of its first three index tokens fails integer parsing, or any resolved
zero-based index falls outside `[0, vertex_count)`, `parse` drops the
entire face and leaves the document state unchanged; and a face is
only ever stored as its exactly-resolved, all-in-bounds index triple —
never clamped or partially valid.  (A 1-based token `0` resolves to
`-1`, which is out of bounds, so the face is dropped.) -/
theorem C3_face_drop_not_clamp (st : GeometryDoc) (raw p0 t1 t2 t3 : List Char)
    (ts : List (List Char))
    (hskip : ¬(pyStrip raw = [] ∨ (pyStrip raw).head? = some '#'))
    (hsplit : pySplit (pyStrip raw) = p0 :: t1 :: t2 :: t3 :: ts)
    (hkey : (p0.map pyLower).head? = some 'e') :
    ((pyInt? (normalize_token t1) = none ∨
      pyInt? (normalize_token t2) = none ∨
      pyInt? (normalize_token t3) = none ∨
      (∃ i1 i2 i3, pyInt? (normalize_token t1) = some i1 ∧
        pyInt? (normalize_token t2) = some i2 ∧
        pyInt? (normalize_token t3) = some i3 ∧
        ¬triInBounds st.vertices.length i1 i2 i3)) →
      processLine st raw = st) ∧
    (∀ i1 i2 i3, pyInt? (normalize_token t1) = some i1 →
      pyInt? (normalize_token t2) = some i2 →
      pyInt? (normalize_token t3) = some i3 →
      triInBounds st.vertices.length i1 i2 i3 →
      processLine st raw =
        { st with indices := st.indices ++ [(i1 - 1, i2 - 1, i3 - 1)] }) :=
  ⟨fun hbad => processLine_face_drop st raw p0 t1 t2 t3 ts hskip hsplit hkey hbad,
   fun _ _ _ h1 h2 h3 hin =>
     processLine_face_push st raw p0 t1 t2 t3 ts _ _ _ hskip hsplit hkey h1 h2 h3 hin⟩

/-- C3 witness: a face line whose first index token is `0` (resolved
index `-1`) is dropped from a one-vertex document. -/
theorem C3_face_drop_not_clamp_witness :
    processLine (parse_vpg_text ("n1 0 0 0".toList)) ("e1 0 1 1".toList) =
      parse_vpg_text ("n1 0 0 0".toList) :=
  (C3_face_drop_not_clamp (parse_vpg_text ("n1 0 0 0".toList)) ("e1 0 1 1".toList)
      ("e1".toList) ("0".toList) ("1".toList) ("1".toList) []
      (by decide) (by decide) (by decide)).1
    (Or.inr (Or.inr (Or.inr ⟨0, 1, 1, by decide, by decide, by decide, by decide⟩)))

/-! ## Claim C9: face bounds are checked against the vertices parsed so far -/

/-- C9: the parser checks a face line's indices against the number of
vertices parsed *so far* (the fold state after the preceding lines),
not the document's final count: a face line out of bounds at its
position is dropped and parsing continues exactly as if the line were
absent, whatever vertex lines follow.  In particular
`"e1 1 1 1\nn1 0 0 0"` parses to one vertex and zero faces even though
index 1 is in bounds for the complete document. -/
theorem C9_bounds_checked_so_far (P S : List (List Char))
    (raw p0 t1 t2 t3 : List Char) (ts : List (List Char))
    (hskip : ¬(pyStrip raw = [] ∨ (pyStrip raw).head? = some '#'))
    (hsplit : pySplit (pyStrip raw) = p0 :: t1 :: t2 :: t3 :: ts)
    (hkey : (p0.map pyLower).head? = some 'e')
    (hbad :
      pyInt? (normalize_token t1) = none ∨
      pyInt? (normalize_token t2) = none ∨
      pyInt? (normalize_token t3) = none ∨
      (∃ i1 i2 i3, pyInt? (normalize_token t1) = some i1 ∧
        pyInt? (normalize_token t2) = some i2 ∧
        pyInt? (normalize_token t3) = some i3 ∧
        ¬triInBounds (P.foldl processLine emptyDoc).vertices.length i1 i2 i3)) :
    (P ++ raw :: S).foldl processLine emptyDoc =
      (P ++ S).foldl processLine emptyDoc ∧
    (parse_vpg_text ("e1 1 1 1\nn1 0 0 0".toList)).vertices.length = 1 ∧
    (parse_vpg_text ("e1 1 1 1\nn1 0 0 0".toList)).indices = [] := by
  refine ⟨?_, by decide, by decide⟩
  rw [List.foldl_append, List.foldl_append, List.foldl_cons]
  rw [processLine_face_drop (P.foldl processLine emptyDoc) raw p0 t1 t2 t3 ts
    hskip hsplit hkey hbad]

/-- C9 witness: the forward-referencing face line `"e1 1 1 1"` before
`"n1 0 0 0"` is dropped: the parse equals the parse without it. -/
theorem C9_bounds_checked_so_far_witness :
    [("e1 1 1 1".toList), ("n1 0 0 0".toList)].foldl processLine emptyDoc =
      [("n1 0 0 0".toList)].foldl processLine emptyDoc := by
  have h := (C9_bounds_checked_so_far [] [("n1 0 0 0".toList)] ("e1 1 1 1".toList)
      ("e1".toList) ("1".toList) ("1".toList) ("1".toList) []
      (by decide) (by decide) (by decide)
      (Or.inr (Or.inr (Or.inr ⟨1, 1, 1, by decide, by decide, by decide, by decide⟩)))).1
  exact h

/-! ## Claim C2: one bad line never aborts the document -/

theorem hasKey_append {β : Type _} (m : List (List Char × β)) (p : List Char × β)
    (k : List Char) : hasKey (m ++ [p]) k = (hasKey m k || (p.1 == k)) := by
  unfold hasKey
  simp [List.any_append]

theorem processLine_vertex_malformed (st : GeometryDoc) (raw : List Char)
    (h : MalformedVertexLine raw) : processLine st raw = st := by
  obtain ⟨⟨hskip, hkey⟩, hbad⟩ := h
  unfold lineKey at hkey
  rcases hp : lineParts raw with _ | ⟨p0, rest⟩
  · rw [hp] at hkey
    exact absurd hkey (by decide)
  · rw [hp] at hkey hbad
    unfold lineParts at hp
    simp only [List.headD_cons] at hkey
    unfold processLine
    rw [if_neg hskip, hp]
    simp only [hkey, List.length_cons]
    rw [if_pos trivial]
    by_cases hlen : (p0 :: rest).length < 4
    · rw [if_pos (by simpa using hlen)]
    · rw [if_neg (by simpa using hlen)]
      simp only [List.length_cons] at hlen
      rcases rest with _ | ⟨t1, rest⟩
      · simp at hlen
      rcases rest with _ | ⟨t2, rest⟩
      · simp at hlen
      rcases rest with _ | ⟨t3, ts⟩
      · simp at hlen
      simp only []
      rcases hbad with hb | ⟨t, ht, hbt⟩
      · simp at hb
        omega
      · simp only [List.drop_succ_cons, List.drop_zero, List.take_succ_cons,
          List.take_zero, List.mem_cons, List.not_mem_nil, or_false] at ht
        rcases f1 : parseFloatTok t1 with _ | x <;>
          rcases f2 : parseFloatTok t2 with _ | y <;>
            rcases f3 : parseFloatTok t3 with _ | z <;> simp only [] <;> try rfl
        exfalso
        rcases ht with h1 | h1 | h1 <;> subst h1
        · rw [hbt] at f1
          cases f1
        · rw [hbt] at f2
          cases f2
        · rw [hbt] at f3
          cases f3

theorem processLine_vertex_valid (st : GeometryDoc) (raw : List Char)
    (h : ValidVertexLine raw)
    (hfresh : hasKey st.node_id_to_index (lineKey raw) = false) :
    ∃ x y z, processLine st raw =
      { st with
        vertices := st.vertices ++ [⟨x, y, z⟩],
        node_index_to_id := st.node_index_to_id ++ [lineKey raw],
        node_id_to_index :=
          st.node_id_to_index ++ [(lineKey raw, st.vertices.length)] } := by
  obtain ⟨⟨hskip, hkey⟩, hlen, hfl⟩ := h
  unfold lineKey at hkey hfresh ⊢
  rcases hp : lineParts raw with _ | ⟨p0, rest⟩
  · rw [hp] at hkey
    exact absurd hkey (by decide)
  rw [hp] at hkey hfresh hlen hfl
  unfold lineParts at hp
  simp only [List.headD_cons] at hkey hfresh ⊢
  rcases rest with _ | ⟨t1, rest⟩
  · simp at hlen
  rcases rest with _ | ⟨t2, rest⟩
  · simp at hlen
  rcases rest with _ | ⟨t3, ts⟩
  · simp at hlen
  simp only [List.drop_succ_cons, List.drop_zero, List.take_succ_cons,
    List.take_zero] at hfl
  rcases f1 : parseFloatTok t1 with _ | x
  · exact absurd f1 (hfl t1 (by simp))
  rcases f2 : parseFloatTok t2 with _ | y
  · exact absurd f2 (hfl t2 (by simp))
  rcases f3 : parseFloatTok t3 with _ | z
  · exact absurd f3 (hfl t3 (by simp))
  refine ⟨x, y, z, ?_⟩
  unfold processLine
  rw [if_neg hskip, hp]
  simp only [hkey, List.length_cons]
  rw [if_pos trivial, if_neg (by omega), f1, f2, f3]
  simp only []
  rw [if_neg (by simp [hfresh])]

theorem fold_valid_vertex_lines :
    ∀ (L : List (List Char)) (st : GeometryDoc),
      (∀ l ∈ L, ValidVertexLine l) → (L.map lineKey).Nodup →
      (∀ l ∈ L, hasKey st.node_id_to_index (lineKey l) = false) →
      (L.foldl processLine st).vertices.length = st.vertices.length + L.length ∧
      (∀ k, hasKey (L.foldl processLine st).node_id_to_index k = true ↔
        (hasKey st.node_id_to_index k = true ∨ k ∈ L.map lineKey)) := by
  intro L
  induction L with
  | nil =>
    intro st _ _ _
    refine ⟨by simp, ?_⟩
    intro k
    simp
  | cons l L ih =>
    intro st hvalid hnodup hfresh
    obtain ⟨x, y, z, hpush⟩ :=
      processLine_vertex_valid st l (hvalid l (List.mem_cons_self _ _))
        (hfresh l (List.mem_cons_self _ _))
    rw [List.foldl_cons, hpush]
    have hfresh2 : ∀ l2 ∈ L,
        hasKey (st.node_id_to_index ++ [(lineKey l, st.vertices.length)])
          (lineKey l2) = false := by
      intro l2 hl2
      rw [hasKey_append]
      have h1 := hfresh l2 (List.mem_cons_of_mem _ hl2)
      have h2 : ¬(lineKey l = lineKey l2) := by
        intro he
        have : lineKey l ∈ L.map lineKey := he ▸ List.mem_map_of_mem lineKey hl2
        rw [List.map_cons] at hnodup
        exact (List.nodup_cons.mp hnodup).1 this
      simp [h1, h2]
    have hih := ih
      { st with
        vertices := st.vertices ++ [⟨x, y, z⟩],
        node_index_to_id := st.node_index_to_id ++ [lineKey l],
        node_id_to_index := st.node_id_to_index ++ [(lineKey l, st.vertices.length)] }
      (fun l2 hl2 => hvalid l2 (List.mem_cons_of_mem _ hl2))
      (by rw [List.map_cons] at hnodup; exact (List.nodup_cons.mp hnodup).2) hfresh2
    constructor
    · rw [hih.1]
      simp
      omega
    · intro k
      rw [hih.2 k, hasKey_append]
      simp only [List.map_cons, List.mem_cons, Bool.or_eq_true, beq_iff_eq]
      constructor
      · rintro ((hk | hk) | hk)
        · exact Or.inl hk
        · exact Or.inr (Or.inl hk.symm)
        · exact Or.inr (Or.inr hk)
      · rintro (hk | hk | hk)
        · exact Or.inl (Or.inl hk)
        · exact Or.inl (Or.inr hk.symm)
        · exact Or.inr hk

/-- C2 counterexample: the claim as stated is false.  A text with one
malformed vertex line and two valid vertex lines parses to only one
vertex, because the two valid lines carry the same id `n1` and the
parser keeps only the first occurrence of an id. -/
theorem C2_recovery_counterexample :
    MalformedVertexLine ("nx 1 2".toList) ∧
    ValidVertexLine ("n1 0 0 0".toList) ∧ ValidVertexLine ("n1 1 1 1".toList) ∧
    pySplitlines ("nx 1 2\nn1 0 0 0\nn1 1 1 1".toList) =
      [("nx 1 2".toList), ("n1 0 0 0".toList), ("n1 1 1 1".toList)] ∧
    (parse_vpg_text ("nx 1 2\nn1 0 0 0\nn1 1 1 1".toList)).vertices.length = 1 := by
  refine ⟨by decide, by decide, by decide, by decide, by decide⟩

/-- C2 (amended): `parse` is total (the embedding is built from total
functions: every per-line failure is modelled by the `Option` parsers
and reproduces `except ValueError: continue`), and for every text
whose lines are one malformed vertex line and N valid vertex lines
*with pairwise distinct ids*, parsing yields exactly N vertices: the
bad line never aborts the document. -/
theorem C2_line_local_recovery (text : List Char) (L1 L2 : List (List Char))
    (bad : List Char)
    (hsplit : pySplitlines text = L1 ++ bad :: L2)
    (hbad : MalformedVertexLine bad)
    (hvalid : ∀ l ∈ L1 ++ L2, ValidVertexLine l)
    (hnodup : ((L1 ++ L2).map lineKey).Nodup) :
    (parse_vpg_text text).vertices.length = (L1 ++ L2).length := by
  unfold parse_vpg_text
  rw [hsplit, List.foldl_append, List.foldl_cons,
    processLine_vertex_malformed _ _ hbad]
  rw [List.map_append] at hnodup
  have h1 := fold_valid_vertex_lines L1 emptyDoc
    (fun l hl => hvalid l (List.mem_append_left _ hl))
    (List.Nodup.of_append_left hnodup)
    (fun l _ => by simp [hasKey, emptyDoc])
  have hfresh2 : ∀ l ∈ L2,
      hasKey (L1.foldl processLine emptyDoc).node_id_to_index (lineKey l) = false := by
    intro l hl
    rw [Bool.eq_false_iff]
    intro hk
    rcases (h1.2 (lineKey l)).mp hk with hk2 | hk2
    · simp [hasKey, emptyDoc] at hk2
    · exact (List.disjoint_of_nodup_append hnodup) hk2 (List.mem_map_of_mem lineKey hl)
  have h2 := fold_valid_vertex_lines L2 (L1.foldl processLine emptyDoc)
    (fun l hl => hvalid l (List.mem_append_right _ hl))
    (List.Nodup.of_append_right hnodup) hfresh2
  rw [h2.1, h1.1]
  simp [emptyDoc]

/-- C2 witness: a malformed vertex line among two distinct-id valid
vertex lines; the parse has exactly two vertices. -/
theorem C2_line_local_recovery_witness :
    (parse_vpg_text ("n1 0 0 0\nnx 1 2\nn2 1 1 1".toList)).vertices.length = 2 := by
  have h := C2_line_local_recovery ("n1 0 0 0\nnx 1 2\nn2 1 1 1".toList)
    [("n1 0 0 0".toList)] [("n2 1 1 1".toList)] ("nx 1 2".toList)
    (by decide) (by decide) (by decide) (by decide)
  simpa using h

/-! ## Claim C6: merging geometry lines into existing text -/

/-- C6: merging freshly generated geometry lines into a base text.
If the base has no geometry lines, the new lines are appended at the
end, blank-separated from a non-blank trailing line.  If it has, the
block from the first geometry line to the last is replaced by the new
lines, every line before and after is preserved verbatim, and a blank
separator line is inserted exactly where the non-blank last prefix
line, or a non-blank first suffix line against a non-blank last
geometry line, would otherwise directly abut the new block.  In
particular, merging `["n1 1 1 1"]` into `"# header\nn1 0 0 0\ne1 1 1 1\n"`
yields a text whose first line is still `"# header"` and whose
geometry block is exactly the new lines. -/
theorem C6_merge_preserves_surroundings (base : List Char) (gl : List (List Char))
    (hgl : gl ≠ []) :
    (geometryIndicesOf (pySplitlines base) = [] →
      _merge_geometry_with_existing base gl =
        joinNl
          ((if pySplitlines base ≠ [] ∧ pyStrip ((pySplitlines base).getLastD []) ≠ []
            then pySplitlines base ++ [[]] else pySplitlines base) ++ gl)) ∧
    (∀ f l, (geometryIndicesOf (pySplitlines base)).headD 0 = f →
      (geometryIndicesOf (pySplitlines base)).getLastD 0 = l →
      geometryIndicesOf (pySplitlines base) ≠ [] →
      _merge_geometry_with_existing base gl =
        joinNl
          ((if (pySplitlines base).take f ≠ [] ∧
               pyStrip (((pySplitlines base).take f).getLastD []) ≠ []
            then (pySplitlines base).take f ++ [[]]
            else (pySplitlines base).take f) ++ gl ++
           (if (pySplitlines base).drop (l + 1) ≠ [] then
              (if pyStrip (((pySplitlines base).drop (l + 1)).headD []) ≠ [] ∧
                  pyStrip (gl.getLastD []) ≠ []
               then [[]] ++ (pySplitlines base).drop (l + 1)
               else (pySplitlines base).drop (l + 1))
            else []))) ∧
    _merge_geometry_with_existing ("# header\nn1 0 0 0\ne1 1 1 1\n".toList)
        [("n1 1 1 1".toList)] =
      ("# header\n\nn1 1 1 1".toList) := by
  refine ⟨?_, ?_, by decide⟩
  · intro hgi
    unfold _merge_geometry_with_existing
    rw [if_neg hgl]
    simp only [hgi]
    rw [if_pos trivial]
  · intro f l hf hl hne
    unfold _merge_geometry_with_existing
    rw [if_neg hgl]
    simp only [hf, hl]
    rw [if_neg hne]
    by_cases hpre : (pySplitlines base).take f ≠ [] ∧
        pyStrip (((pySplitlines base).take f).getLastD []) ≠ []
    <;> by_cases hsuf : (pySplitlines base).drop (l + 1) = []
    <;> simp [hpre, hsuf, List.append_assoc]
    <;> split
    <;> simp [List.append_assoc]

/-- C6 witness: the merge applied to a base with a header line and an
existing geometry block. -/
theorem C6_merge_preserves_surroundings_witness :
    _merge_geometry_with_existing ("# header\nn1 0 0 0\ne1 1 1 1\n".toList)
        [("n1 1 1 1".toList)] =
      ("# header\n\nn1 1 1 1".toList) :=
  (C6_merge_preserves_surroundings ("# header\nn1 0 0 0\ne1 1 1 1\n".toList)
    [("n1 1 1 1".toList)] (by decide)).2.2

/-! ## Claim C7: orphan cleanup -/

theorem alookup_cons {β : Type _} (p : List Char × β) (ps : List (List Char × β))
    (k : List Char) :
    alookup (p :: ps) k = if p.1 = k then some p.2 else alookup ps k := by
  unfold alookup
  rw [List.find?_cons]
  cases hbe : (p.1 == k) with
  | true =>
    have h2 : p.1 = k := by simpa using hbe
    rw [if_pos h2]
    rfl
  | false =>
    have h2 : ¬(p.1 = k) := by
      intro he
      rw [he, beq_self_eq_true] at hbe
      cases hbe
    rw [if_neg h2]

theorem alookup_aremove {β : Type _} (m : List (List Char × β)) (k k2 : List Char) :
    alookup (aremove m k2) k = if k = k2 then none else alookup m k := by
  induction m with
  | nil =>
    unfold aremove
    simp only [List.filter_nil]
    split <;> rfl
  | cons p ps ih =>
    unfold aremove at ih ⊢
    rw [List.filter_cons]
    by_cases h2 : p.1 = k2
    · rw [if_neg (by simp [h2])]
      rw [ih, alookup_cons]
      by_cases hk : k = k2
      · simp [hk]
      · rw [if_neg hk, if_neg hk, if_neg (fun he => hk (he.symm.trans h2))]
    · rw [if_pos (by simp [h2])]
      rw [alookup_cons, alookup_cons, ih]
      by_cases hp : p.1 = k
      · rw [if_pos hp, if_pos hp, if_neg (fun he => h2 (hp.trans he))]
      · rw [if_neg hp, if_neg hp]

theorem remove_int_file_history (st : BState) (f : List Char) :
    (remove_int_file st f).history = st.history := rfl

theorem remove_int_file_objects (st : BState) (f : List Char) :
    (remove_int_file st f).objects = st.objects := rfl

theorem cleanup_eq (st : BState) :
    _cleanup_orphan_internal_texts st =
      if st.scene.shortToFull = [] then st
      else st.scene.shortToFull.foldl
        (fun a p => if p.2 ∈ _collect_active_vpg_paths st then a
          else remove_int_file a p.2) st := rfl

theorem cleanup_fold_invariants (active : List (List Char)) :
    ∀ (items : List (List Char × List Char)) (acc : BState) (k : List Char),
      (items.foldl (fun a p => if p.2 ∈ active then a else remove_int_file a p.2)
          acc).history = acc.history ∧
      (items.foldl (fun a p => if p.2 ∈ active then a else remove_int_file a p.2)
          acc).objects = acc.objects ∧
      (alookup acc.texts k = none →
        alookup (items.foldl
          (fun a p => if p.2 ∈ active then a else remove_int_file a p.2) acc).texts k =
          none) ∧
      (alookup acc.scene.shortToFull k = none →
        alookup (items.foldl
          (fun a p => if p.2 ∈ active then a else remove_int_file a p.2)
            acc).scene.shortToFull k = none) ∧
      (alookup acc.scene.prevTexts k = none →
        alookup (items.foldl
          (fun a p => if p.2 ∈ active then a else remove_int_file a p.2)
            acc).scene.prevTexts k = none) := by
  intro items
  induction items with
  | nil =>
    intro acc k
    exact ⟨rfl, rfl, id, id, id⟩
  | cons p ps ih =>
    intro acc k
    rw [List.foldl_cons]
    by_cases hp : p.2 ∈ active
    · rw [if_pos hp]
      exact ih acc k
    · rw [if_neg hp]
      obtain ⟨h1, h2, h3, h4, h5⟩ := ih (remove_int_file acc p.2) k
      refine ⟨h1, h2, ?_, ?_, ?_⟩
      · intro h
        refine h3 ?_
        show alookup (aremove acc.texts (to_short_filename p.2)) k = none
        rw [alookup_aremove]
        split <;> simp [h]
      · intro h
        refine h4 ?_
        show alookup (aremove acc.scene.shortToFull (to_short_filename p.2)) k = none
        rw [alookup_aremove]
        split <;> simp [h]
      · intro h
        refine h5 ?_
        show alookup (aremove acc.scene.prevTexts (to_short_filename p.2)) k = none
        rw [alookup_aremove]
        split <;> simp [h]

theorem cleanup_fold_removes (active : List (List Char)) :
    ∀ (items : List (List Char × List Char)) (acc : BState) (short full : List Char),
      (short, full) ∈ items → short = to_short_filename full → full ∉ active →
      alookup (items.foldl
        (fun a p => if p.2 ∈ active then a else remove_int_file a p.2) acc).texts
          short = none ∧
      alookup (items.foldl
        (fun a p => if p.2 ∈ active then a else remove_int_file a p.2)
          acc).scene.shortToFull short = none ∧
      alookup (items.foldl
        (fun a p => if p.2 ∈ active then a else remove_int_file a p.2)
          acc).scene.prevTexts short = none := by
  intro items
  induction items with
  | nil =>
    intro acc short full hmem
    cases hmem
  | cons p ps ih =>
    intro acc short full hmem hbase horphan
    rw [List.foldl_cons]
    rcases List.mem_cons.mp hmem with hm | hm
    · have hp2 : p.2 = full := by rw [← hm]
      rw [if_neg (by rw [hp2]; exact horphan)]
      have habs : ∀ (m : List (List Char × List Char)),
          alookup (aremove m (to_short_filename p.2)) short = none ∨
            alookup (aremove m (to_short_filename p.2)) short = alookup m short := by
        intro m
        rw [alookup_aremove]
        split
        · exact Or.inl rfl
        · exact Or.inr rfl
      have hshort : short = to_short_filename p.2 := by rw [hp2, ← hbase]
      obtain ⟨h1, h2, h3, h4, h5⟩ :=
        cleanup_fold_invariants active ps (remove_int_file acc p.2) short
      refine ⟨h3 ?_, h4 ?_, h5 ?_⟩
      · show alookup (aremove acc.texts (to_short_filename p.2)) short = none
        rw [alookup_aremove, if_pos hshort]
      · show alookup (aremove acc.scene.shortToFull (to_short_filename p.2)) short = none
        rw [alookup_aremove, if_pos hshort]
      · show alookup (aremove acc.scene.prevTexts (to_short_filename p.2)) short = none
        rw [alookup_aremove, if_pos hshort]
    · by_cases hp : p.2 ∈ active
      · rw [if_pos hp]
        exact ih acc short full hm hbase horphan
      · rw [if_neg hp]
        exact ih (remove_int_file acc p.2) short full hm hbase horphan

/-- C7 counterexample: the claim as stated is false.  Cleanup of an
orphaned tracked text document deletes the text, its mapping entry and
its previous-text entry, but it does *not* delete its undo/redo
history entries: `remove_int_file` never touches `history_stack`. -/
theorem C7_cleanup_counterexample :
    (let st0 : BState :=
      { texts := [("a.vpg".toList, "x".toList)],
        scene := { shortToFull := [("a.vpg".toList, "a.vpg".toList)],
                   prevTexts := [("a.vpg".toList, some ("x".toList))] },
        objects := [],
        history := [("a.vpg".toList, "x".toList)] }
    alookup (_cleanup_orphan_internal_texts st0).texts ("a.vpg".toList) = none ∧
    (_cleanup_orphan_internal_texts st0).history = [("a.vpg".toList, "x".toList)] ∧
    (_cleanup_orphan_internal_texts st0).history ≠ []) := by
  decide

/-- C7 (amended): on a cleanup pass, every tracked text document whose
full path is referenced by no live geometry object loses its text
buffer, its short-name-to-path mapping entry and its previous-text
(sync-state) entry, and a second cleanup pass does not make the text
buffer reappear; the undo/redo history entries are left untouched. -/
theorem C7_cleanup_orphans (st : BState) (short full : List Char)
    (hmem : (short, full) ∈ st.scene.shortToFull)
    (hbase : short = to_short_filename full)
    (horphan : full ∉ _collect_active_vpg_paths st) :
    alookup (_cleanup_orphan_internal_texts st).texts short = none ∧
    alookup (_cleanup_orphan_internal_texts st).scene.shortToFull short = none ∧
    alookup (_cleanup_orphan_internal_texts st).scene.prevTexts short = none ∧
    (_cleanup_orphan_internal_texts st).history = st.history ∧
    alookup (_cleanup_orphan_internal_texts
      (_cleanup_orphan_internal_texts st)).texts short = none := by
  have hne : st.scene.shortToFull ≠ [] := by
    intro he
    rw [he] at hmem
    cases hmem
  have hmain := cleanup_fold_removes (_collect_active_vpg_paths st)
    st.scene.shortToFull st short full hmem hbase horphan
  have hinv := cleanup_fold_invariants (_collect_active_vpg_paths st)
    st.scene.shortToFull st short
  rw [cleanup_eq st, if_neg hne]
  refine ⟨hmain.1, hmain.2.1, hmain.2.2, hinv.1, ?_⟩
  set st1 := st.scene.shortToFull.foldl
    (fun a p => if p.2 ∈ _collect_active_vpg_paths st then a
      else remove_int_file a p.2) st with hst1
  rw [cleanup_eq st1]
  by_cases h1 : st1.scene.shortToFull = []
  · rw [if_pos h1]
    exact hmain.1
  · rw [if_neg h1]
    exact (cleanup_fold_invariants (_collect_active_vpg_paths st1)
      st1.scene.shortToFull st1 short).2.2.1 hmain.1

/-- C7 witness: the amended cleanup theorem at a concrete orphaned
document. -/
theorem C7_cleanup_orphans_witness :
    alookup (_cleanup_orphan_internal_texts
      { texts := [("b.vpg".toList, "y".toList)],
        scene := { shortToFull := [("b.vpg".toList, "b.vpg".toList)],
                   prevTexts := [("b.vpg".toList, none)] },
        objects := [],
        history := [] }).texts ("b.vpg".toList) = none :=
  (C7_cleanup_orphans
    { texts := [("b.vpg".toList, "y".toList)],
      scene := { shortToFull := [("b.vpg".toList, "b.vpg".toList)],
                 prevTexts := [("b.vpg".toList, none)] },
      objects := [],
      history := [] }
    ("b.vpg".toList) ("b.vpg".toList) (by decide) (by decide) (by decide)).1

/-! ## Claim C10: a no-op serialization leaves everything unchanged -/

/-- C10: for a tracked mesh with a truthy VPG path, when the freshly
serialized-and-merged text equals the cached text (or, absent a
cache, the internal buffer's content), `_sync_object_text` returns
`false` and leaves the mesh's cached text, the text buffers and the
scene's previous-texts map — indeed the whole store state —
unchanged. -/
theorem C10_sync_no_change (st : BState) (m : VMesh) (path : List Char)
    (hpath : m.vpgPath = some path) (hne : ¬(path = []))
    (heq : some (mesh_to_vpg_text m.bm (syncOldText st m path)) =
      syncOldText st m path) :
    (_sync_object_text st m).changed = false ∧
    (_sync_object_text st m).mesh.meshData = m.meshData ∧
    (_sync_object_text st m).st = st := by
  unfold _sync_object_text
  rw [hpath]
  simp only []
  rw [if_neg hne, if_pos heq]
  exact ⟨rfl, rfl, rfl⟩

/-- C10 witness: a one-vertex mesh whose cached text already equals
its serialization; the sync is a no-op. -/
theorem C10_sync_no_change_witness :
    (_sync_object_text
      { texts := [], scene := { shortToFull := [], prevTexts := [] },
        objects := [], history := [] }
      { bm := { verts := [{ stamped := some ("n1".toList),
                            co := ⟨⟨0, 0⟩, ⟨0, 0⟩, ⟨0, 0⟩⟩ }], faces := [] },
        vpgPath := some ("a.vpg".toList),
        meshData := some ("n1 0e0 0e0 0e0".toList) }).changed = false :=
  (C10_sync_no_change
    { texts := [], scene := { shortToFull := [], prevTexts := [] },
      objects := [], history := [] }
    { bm := { verts := [{ stamped := some ("n1".toList),
                          co := ⟨⟨0, 0⟩, ⟨0, 0⟩, ⟨0, 0⟩⟩ }], faces := [] },
      vpgPath := some ("a.vpg".toList),
      meshData := some ("n1 0e0 0e0 0e0".toList) }
    ("a.vpg".toList) rfl (by decide) (by decide)).1

/-! ## Serializer scan lemmas (shared by the C4, C5 and C1 results) -/

theorem nId_ne_nil (k : Nat) : nId k ≠ [] := by
  unfold nId
  simp

theorem nId_inj {a b : Nat} (h : nId a = nId b) : a = b := by
  unfold nId at h
  exact natDigits_inj (List.cons.inj h).2

theorem natDigits_not_space {c : Char} (n : Nat) (hc : c ∈ natDigits n) :
    isPySpace c = false := by
  have := natDigits_mem_toNat n c hc
  by_contra h
  rw [Bool.not_eq_false, isPySpace_iff] at h
  omega

theorem pyStrip_nId (k : Nat) : pyStrip (nId k) = nId k := by
  apply pyStrip_eq_self
  · intro hd hhd
    unfold nId at hhd
    simp only [List.head?_cons, Option.some_inj] at hhd
    subst hhd
    decide
  · intro lst hlst
    unfold nId at hlst
    rw [getLast?_cons_of_ne _ (natDigits_ne_nil k)] at hlst
    have hm : lst ∈ natDigits k := List.mem_of_mem_getLast? hlst
    exact natDigits_not_space k hm

theorem pyIsdigit_natDigits (n : Nat) : pyIsdigit (natDigits n) = true := by
  unfold pyIsdigit
  rw [natDigits_all_isDig]
  have := natDigits_ne_nil n
  simp [List.isEmpty_iff, this]

theorem decodedId_of_stamped_nId {v : BMVert} {k : Nat}
    (h : v.stamped = some (nId k)) : decodedId v = nId k := by
  unfold decodedId
  rw [h]
  simp only []
  rw [if_neg (nId_ne_nil k), pyStrip_nId]

theorem nId_head_lower (k : Nat) : (nId k).head?.map pyLower = some 'n' := by
  unfold nId
  simp only [List.head?_cons, Option.map_some]
  decide

theorem nId_length (k : Nat) : ¬(nId k).length < 2 := by
  unfold nId
  have h1 := natDigits_ne_nil k
  rcases hd : natDigits k with _ | ⟨c, cs⟩
  · exact absurd hd h1
  · simp

theorem nId_not_invalid (k : Nat) :
    ¬((nId k).length < 2 ∨ ¬((nId k).head?.map pyLower = some 'n') ∨
      pyIsdigit ((nId k).drop 1) = false) := by
  intro hc
  rcases hc with hc | hc | hc
  · exact nId_length k hc
  · exact hc (nId_head_lower k)
  · rw [show ((nId k).drop 1) = natDigits k from rfl, pyIsdigit_natDigits] at hc
    cases hc

theorem scanStep_entries (idx : Nat) (st : ScanSt) (v : BMVert) :
    (scanStep idx st v).entries = st.entries ++ [(v, scanId idx v)] := by
  unfold scanStep scanId
  simp only []
  by_cases h1 : decodedId v = []
  · rw [if_pos h1, if_pos h1]
  · rw [if_neg h1, if_neg h1]
    by_cases h2 : (decodedId v).length < 2 ∨
        ¬((decodedId v).head?.map pyLower = some 'n') ∨
        pyIsdigit ((decodedId v).drop 1) = false
    · rw [if_pos h2, if_pos h2]
    · rw [if_neg h2, if_neg h2]
      by_cases h3 : decodedId v = 'n' :: (decodedId v).drop 1
      · rw [if_neg (by simpa using h3)]
        show st.entries ++ [(v, decodedId v)] = _
        rw [← h3]
      · rw [if_pos (by simpa using h3)]

theorem scanStep_seen (idx : Nat) (st : ScanSt) (v : BMVert) :
    (scanStep idx st v).seen_numeric = scanId idx v :: st.seen_numeric := by
  unfold scanStep scanId
  simp only []
  by_cases h1 : decodedId v = []
  · rw [if_pos h1, if_pos h1]
  · rw [if_neg h1, if_neg h1]
    by_cases h2 : (decodedId v).length < 2 ∨
        ¬((decodedId v).head?.map pyLower = some 'n') ∨
        pyIsdigit ((decodedId v).drop 1) = false
    · rw [if_pos h2, if_pos h2]
    · rw [if_neg h2, if_neg h2]
      by_cases h3 : decodedId v = 'n' :: (decodedId v).drop 1
      · rw [if_neg (by simpa using h3)]
        show decodedId v :: st.seen_numeric = _
        rw [← h3]
      · rw [if_pos (by simpa using h3)]

theorem scanStep_numeric (idx : Nat) (st : ScanSt) (v : BMVert) :
    (scanStep idx st v).numeric_pattern =
      if InvalidStamped v then false else st.numeric_pattern := by
  unfold scanStep
  simp only []
  by_cases h1 : decodedId v = []
  · rw [if_pos h1, if_neg (show ¬InvalidStamped v from fun hc => hc.1 h1)]
  · rw [if_neg h1]
    by_cases h2 : (decodedId v).length < 2 ∨
        ¬((decodedId v).head?.map pyLower = some 'n') ∨
        pyIsdigit ((decodedId v).drop 1) = false
    · rw [if_pos h2, if_pos (show InvalidStamped v from ⟨h1, h2⟩)]
    · have hni : ¬InvalidStamped v := fun hc => h2 hc.2
      rw [if_neg h2]
      by_cases h3 : decodedId v = 'n' :: (decodedId v).drop 1
      · rw [if_neg (by simpa using h3), if_neg hni]
      · rw [if_pos (by simpa using h3), if_neg hni]

theorem scanVerts_entries (vs : List BMVert) :
    ∀ (k : Nat) (st : ScanSt),
      (scanVerts k st vs).entries =
        st.entries ++
          ((List.range' k vs.length).zip vs).map (fun p => (p.2, scanId p.1 p.2)) := by
  induction vs with
  | nil =>
    intro k st
    simp [scanVerts]
  | cons v vs ih =>
    intro k st
    show (scanVerts (k + 1) (scanStep k st v) vs).entries = _
    rw [ih (k + 1) (scanStep k st v), scanStep_entries]
    simp [List.range', List.append_assoc]

theorem scanVerts_numeric (vs : List BMVert) :
    ∀ (k : Nat) (st : ScanSt),
      (scanVerts k st vs).numeric_pattern =
        if ∃ v ∈ vs, InvalidStamped v then false else st.numeric_pattern := by
  induction vs with
  | nil =>
    intro k st
    simp [scanVerts]
  | cons v vs ih =>
    intro k st
    show (scanVerts (k + 1) (scanStep k st v) vs).numeric_pattern = _
    rw [ih (k + 1) (scanStep k st v), scanStep_numeric]
    by_cases hv : InvalidStamped v
    · by_cases hvs : ∃ x ∈ vs, InvalidStamped x
      · rw [if_pos hvs, if_pos ⟨v, by simp, hv⟩]
      · rw [if_neg hvs, if_pos hv, if_pos ⟨v, by simp, hv⟩]
    · by_cases hvs : ∃ x ∈ vs, InvalidStamped x
      · rw [if_pos hvs]
        obtain ⟨x, hx1, hx2⟩ := hvs
        rw [if_pos ⟨x, by simp [hx1], hx2⟩]
      · rw [if_neg hvs, if_neg hv, if_neg ?hno]
        case hno =>
          rintro ⟨x, hx1, hx2⟩
          rcases List.mem_cons.mp hx1 with h | h
          · subst h
            exact hv hx2
          · exact hvs ⟨x, h, hx2⟩

theorem scanStep_dense (idx : Nat) (st : ScanSt) (v : BMVert)
    (hid : decodedId v = nId (idx + 1))
    (hseen : nId (idx + 1) ∉ st.seen_numeric) :
    scanStep idx st v =
      { entries := st.entries ++ [(v, nId (idx + 1))],
        numeric_pattern := st.numeric_pattern,
        needs_renumber := st.needs_renumber,
        seen_numeric := nId (idx + 1) :: st.seen_numeric } := by
  unfold scanStep
  rw [hid]
  simp only []
  rw [if_neg (nId_ne_nil (idx + 1)), if_neg (nId_not_invalid (idx + 1))]
  have heq : nId (idx + 1) = 'n' :: (nId (idx + 1)).drop 1 := by
    unfold nId
    simp
  rw [if_neg (not_not_intro heq)]
  simp only []
  rw [if_neg hseen, if_neg (not_not_intro rfl)]

theorem scanVerts_dense (vs : List BMVert) :
    ∀ (k : Nat) (st : ScanSt),
      (∀ i (h : i < vs.length), decodedId (vs.get ⟨i, h⟩) = nId (k + i + 1)) →
      (∀ s ∈ st.seen_numeric, ∃ j, 1 ≤ j ∧ j ≤ k ∧ s = nId j) →
      (scanVerts k st vs).entries =
        st.entries ++ vs.zip ((List.range' (k + 1) vs.length).map nId) ∧
      (scanVerts k st vs).numeric_pattern = st.numeric_pattern ∧
      (scanVerts k st vs).needs_renumber = st.needs_renumber := by
  induction vs with
  | nil =>
    intro k st _ _
    simp [scanVerts]
  | cons v vs ih =>
    intro k st hid hseen
    have hv : decodedId v = nId (k + 1) := by
      have := hid 0 (by simp)
      simpa using this
    have hnotseen : nId (k + 1) ∉ st.seen_numeric := by
      intro hmem
      obtain ⟨j, hj1, hj2, hj3⟩ := hseen _ hmem
      have := nId_inj hj3.symm
      omega
    show (scanVerts (k + 1) (scanStep k st v) vs).entries =
        st.entries ++ (v :: vs).zip ((List.range' (k + 1) (v :: vs).length).map nId) ∧
      (scanVerts (k + 1) (scanStep k st v) vs).numeric_pattern = st.numeric_pattern ∧
      (scanVerts (k + 1) (scanStep k st v) vs).needs_renumber = st.needs_renumber
    rw [scanStep_dense k st v hv hnotseen]
    have hrec := ih (k + 1)
      { entries := st.entries ++ [(v, nId (k + 1))],
        numeric_pattern := st.numeric_pattern,
        needs_renumber := st.needs_renumber,
        seen_numeric := nId (k + 1) :: st.seen_numeric }
      (by
        intro i h
        have := hid (i + 1) (by simpa using Nat.succ_lt_succ h)
        simp only [List.get_cons_succ] at this
        rw [this]
        congr 1
        omega)
      (by
        intro s hs
        rcases List.mem_cons.mp hs with h1 | h1
        · exact ⟨k + 1, by omega, by omega, h1⟩
        · obtain ⟨j, hj1, hj2, hj3⟩ := hseen s h1
          exact ⟨j, hj1, by omega, hj3⟩)
    refine ⟨?_, hrec.2.1, hrec.2.2⟩
    rw [hrec.1]
    show st.entries ++ [(v, nId (k + 1))] ++
        vs.zip ((List.range' (k + 1 + 1) vs.length).map nId) = _
    simp only [List.length_cons]
    rw [List.range'_succ, List.append_assoc]
    simp

/-! ## Claim C4: pure-position edits never change vertex ids -/

/-- C4: for a mesh whose vertices carry the dense lowercase stamped
ids `n1..nK` in vertex order, serialization emits for every vertex
exactly its stamped id (the entries pair each vertex, in order, with
`n<position+1>`, which is its stamped id) and the write-back leaves
every vertex unchanged.  The positions are universally quantified, so
any edit that only moves vertices keeps every id. -/
theorem C4_identity_stability (verts : List BMVert)
    (hids : ∀ i (h : i < verts.length),
      (verts.get ⟨i, h⟩).stamped = some (nId (i + 1))) :
    (vertexEntries verts).map (fun p => p.1) = verts ∧
    (vertexEntries verts).map (fun p => p.2) =
      (List.range' 1 verts.length).map nId ∧
    writebackVerts verts = verts := by
  have hdense := scanVerts_dense verts 0 initScan
    (by
      intro i h
      rw [decodedId_of_stamped_nId (hids i h)]
      congr 1
      omega)
    (by
      intro s hs
      simp [initScan] at hs)
  have hneg : ¬((scanVerts 0 initScan verts).numeric_pattern = true ∧
      (scanVerts 0 initScan verts).needs_renumber = true) := by
    intro hc
    rw [hdense.2.2] at hc
    exact absurd hc.2 (by simp [initScan])
  have hlen : ((List.range' (0 + 1) verts.length).map nId).length = verts.length := by
    simp
  refine ⟨?_, ?_, ?_⟩
  · unfold vertexEntries
    rw [if_neg hneg, hdense.1]
    have hnil : initScan.entries = ([] : List (BMVert × List Char)) := rfl
    rw [hnil, List.nil_append]
    exact List.map_fst_zip verts _ (by simp)
  · unfold vertexEntries
    rw [if_neg hneg, hdense.1]
    have hnil : initScan.entries = ([] : List (BMVert × List Char)) := rfl
    rw [hnil, List.nil_append]
    exact List.map_snd_zip verts _ (by simp)
  · unfold writebackVerts
    rw [if_neg hneg]

/-- C4 witness: a two-vertex mesh with stamped ids `n1`, `n2`. -/
theorem C4_identity_stability_witness :
    (vertexEntries
      [{ stamped := some ("n1".toList), co := ⟨⟨1, 0⟩, ⟨2, 0⟩, ⟨3, 0⟩⟩ },
       { stamped := some ("n2".toList), co := ⟨⟨4, 0⟩, ⟨5, 0⟩, ⟨6, 0⟩⟩ }]).map
        (fun p => p.2) = [("n1".toList), ("n2".toList)] := by
  have h := (C4_identity_stability
    [{ stamped := some ("n1".toList), co := ⟨⟨1, 0⟩, ⟨2, 0⟩, ⟨3, 0⟩⟩ },
     { stamped := some ("n2".toList), co := ⟨⟨4, 0⟩, ⟨5, 0⟩, ⟨6, 0⟩⟩ }]
    (by decide)).2.1
  rw [h]
  decide

/-! ## Claim C5: one invalid id disables whole-document renumbering -/

/-- C5 counterexample: the claim as stated is false.  In a mesh whose
first vertex is stamped `foo` (which fails the `n<number>` pattern
entirely), serialization emits `foo` for that vertex — the invalid
entry keeps its stamped id verbatim; it does not receive the fresh
assigned id `n1` the claim promises. -/
theorem C5_invalid_id_counterexample :
    (vertexEntries
      [{ stamped := some ("foo".toList), co := ⟨⟨0, 0⟩, ⟨0, 0⟩, ⟨0, 0⟩⟩ },
       { stamped := some ("n5".toList), co := ⟨⟨0, 0⟩, ⟨0, 0⟩, ⟨0, 0⟩⟩ }]).map
        (fun p => p.2) = [("foo".toList), ("n5".toList)] ∧
    ¬(("foo".toList : List Char) = ("n1".toList)) := by
  refine ⟨by decide, by decide⟩

/-- C5 (amended): if at least one vertex's stamped id fails the
`n<number>` pattern entirely, whole-document renumbering is skipped —
the emitted entries pair each vertex, in order, with its per-vertex
`scanId` — where a vertex with a missing/blank id receives the fresh
assigned id `n<position+1>`, a vertex whose id fails the pattern keeps
its (stripped) stamped id verbatim, and a vertex whose id matches the
pattern keeps its original, possibly sparse, id normalized to a
lowercase leading `n`. -/
theorem C5_invalid_id_policy (verts : List BMVert)
    (hinv : ∃ v ∈ verts, InvalidStamped v) :
    vertexEntries verts =
      ((List.range' 0 verts.length).zip verts).map
        (fun p => (p.2, scanId p.1 p.2)) ∧
    (∀ idx v, InvalidStamped v → scanId idx v = decodedId v) ∧
    (∀ idx v, decodedId v = [] → scanId idx v = nId (idx + 1)) ∧
    (∀ idx v, decodedId v ≠ [] → ¬InvalidStamped v →
      scanId idx v = 'n' :: (decodedId v).drop 1) := by
  refine ⟨?_, ?_, ?_, ?_⟩
  · have hn := scanVerts_numeric verts 0 initScan
    rw [if_pos hinv] at hn
    unfold vertexEntries
    rw [if_neg (fun hc => by rw [hn] at hc; exact absurd hc.1 (by simp))]
    rw [scanVerts_entries verts 0 initScan]
    simp [initScan]
  · intro idx v hv
    unfold scanId
    rw [if_neg hv.1, if_pos hv.2]
  · intro idx v h
    unfold scanId
    rw [if_pos h]
  · intro idx v h1 h2
    unfold scanId
    rw [if_neg h1, if_neg (fun hc => h2 ⟨h1, hc⟩)]

/-- C5 witness: a mesh holding an invalid id `foo`, a sparse valid id
`n5`, an uppercase valid id `N7` and a missing id: renumbering is
skipped, `foo` and `n5` are kept, `N7` is normalized to `n7`, and the
missing id becomes `n4`. -/
theorem C5_invalid_id_policy_witness :
    (vertexEntries
      [{ stamped := some ("foo".toList), co := ⟨⟨0, 0⟩, ⟨0, 0⟩, ⟨0, 0⟩⟩ },
       { stamped := some ("n5".toList), co := ⟨⟨0, 0⟩, ⟨0, 0⟩, ⟨0, 0⟩⟩ },
       { stamped := some ("N7".toList), co := ⟨⟨0, 0⟩, ⟨0, 0⟩, ⟨0, 0⟩⟩ },
       { stamped := none, co := ⟨⟨0, 0⟩, ⟨0, 0⟩, ⟨0, 0⟩⟩ }]).map (fun p => p.2) =
      [("foo".toList), ("n5".toList), ("n7".toList), ("n4".toList)] := by
  have h := (C5_invalid_id_policy
    [{ stamped := some ("foo".toList), co := ⟨⟨0, 0⟩, ⟨0, 0⟩, ⟨0, 0⟩⟩ },
     { stamped := some ("n5".toList), co := ⟨⟨0, 0⟩, ⟨0, 0⟩, ⟨0, 0⟩⟩ },
     { stamped := some ("N7".toList), co := ⟨⟨0, 0⟩, ⟨0, 0⟩, ⟨0, 0⟩⟩ },
     { stamped := none, co := ⟨⟨0, 0⟩, ⟨0, 0⟩, ⟨0, 0⟩⟩ }]
    ⟨{ stamped := some ("foo".toList), co := ⟨⟨0, 0⟩, ⟨0, 0⟩, ⟨0, 0⟩⟩ },
      by decide, by decide⟩).1
  rw [h]
  decide

/-! ## C1 groundwork: characters, tokens and the parse invariant -/

theorem isPySpace_pyLower (c : Char) : isPySpace (pyLower c) = isPySpace c := by
  have h1 := pyLower_toNat c
  rw [Bool.eq_iff_iff, isPySpace_iff, isPySpace_iff]
  by_cases h : 65 ≤ c.toNat ∧ c.toNat ≤ 90
  · rw [if_pos h] at h1
    omega
  · rw [if_neg h] at h1
    omega

theorem map_pyLower_fix {l : List Char} (h : ∀ c ∈ l, pyLower c = c) :
    l.map pyLower = l := by
  induction l with
  | nil => rfl
  | cons c t ih =>
    simp only [List.map_cons]
    rw [h c (List.mem_cons_self _ _), ih (fun d hd => h d (List.mem_cons_of_mem _ hd))]

theorem mem_of_head?_eq {α : Type _} {l : List α} {a : α} (h : l.head? = some a) :
    a ∈ l := by
  rcases l with _ | ⟨b, t⟩
  · cases h
  · simp only [List.head?_cons, Option.some_inj] at h
    rw [← h]
    exact List.mem_cons_self _ _

theorem getLast?_append_right {α : Type _} (l : List α) {r : List α} (h : r ≠ []) :
    (l ++ r).getLast? = r.getLast? := by
  induction l with
  | nil => rfl
  | cons a l ih =>
    rw [List.cons_append, getLast?_cons_of_ne _ (by simp [h]), ih]

theorem WfId_of_token {p0 : List Char}
    (hsp : ∀ c ∈ p0, isPySpace c = false)
    (hn : (p0.map pyLower).head? = some 'n') : WfId (p0.map pyLower) := by
  refine ⟨?_, hn, ?_, ?_⟩
  · intro h
    rw [h] at hn
    cases hn
  · intro c hc
    rcases List.mem_map.mp hc with ⟨a, ha, rfl⟩
    rw [isPySpace_pyLower]
    exact hsp a ha
  · rw [List.map_map]
    exact List.map_congr_left (fun a _ => pyLower_idem a)

theorem hasKey_false_not_mem {β : Type _} {m : List (List Char × β)} {k : List Char}
    (h : hasKey m k = false) : k ∉ m.map Prod.fst := by
  intro hk
  rcases List.mem_map.mp hk with ⟨p, hp, hpk⟩
  have h2 : hasKey m k = true := by
    unfold hasKey
    rw [List.any_eq_true]
    exact ⟨p, hp, by rw [beq_iff_eq]; exact hpk⟩
  rw [h] at h2
  cases h2

theorem processLine_shape (st : GeometryDoc) (raw : List Char) :
    processLine st raw = st ∨
    (∃ co id, WfId id ∧ hasKey st.node_id_to_index id = false ∧
      processLine st raw =
        { st with
          vertices := st.vertices ++ [co]
          node_index_to_id := st.node_index_to_id ++ [id]
          node_id_to_index :=
            st.node_id_to_index ++ [(id, st.vertices.length)] }) ∨
    (∃ j : Int × Int × Int,
      (0 ≤ j.1 ∧ j.1 < (st.vertices.length : Int) ∧
        0 ≤ j.2.1 ∧ j.2.1 < (st.vertices.length : Int) ∧
        0 ≤ j.2.2 ∧ j.2.2 < (st.vertices.length : Int)) ∧
      processLine st raw = { st with indices := st.indices ++ [j] }) := by
  unfold processLine
  by_cases hskip : pyStrip raw = [] ∨ (pyStrip raw).head? = some '#'
  · rw [if_pos hskip]
    exact Or.inl rfl
  rw [if_neg hskip]
  rcases hp : pySplit (pyStrip raw) with _ | ⟨p0, rest⟩
  · try rw [hp]
    exact Or.inl rfl
  try rw [hp]
  have hmem : p0 ∈ pySplit (pyStrip raw) := by
    rw [hp]
    exact List.mem_cons_self _ _
  by_cases hn : (p0.map pyLower).head? = some 'n'
  · simp only [hn, List.length_cons]
    rw [if_pos trivial]
    by_cases hlen : rest.length + 1 < 4
    · rw [if_pos hlen]
      exact Or.inl rfl
    rw [if_neg hlen]
    rcases rest with _ | ⟨t1, rest⟩
    · exact Or.inl rfl
    rcases rest with _ | ⟨t2, rest⟩
    · exact Or.inl rfl
    rcases rest with _ | ⟨t3, ts⟩
    · exact Or.inl rfl
    simp only []
    rcases f1 : parseFloatTok t1 with _ | x
    · exact Or.inl rfl
    rcases f2 : parseFloatTok t2 with _ | y
    · exact Or.inl rfl
    rcases f3 : parseFloatTok t3 with _ | z
    · exact Or.inl rfl
    simp only []
    by_cases hk : hasKey st.node_id_to_index (p0.map pyLower) = true
    · rw [if_pos hk]
      exact Or.inl rfl
    · rw [if_neg hk]
      refine Or.inr (Or.inl ⟨⟨x, y, z⟩, p0.map pyLower, ?_, ?_, rfl⟩)
      · obtain ⟨hne, hnsp⟩ := pySplit_words p0 hmem
        exact WfId_of_token hnsp hn
      · exact Bool.not_eq_true _ ▸ hk
  · simp only []
    rw [if_neg hn]
    by_cases he : (p0.map pyLower).head? = some 'e'
    · simp only [he]
      rw [if_pos trivial]
      by_cases hlen : rest.length < 3
      · rw [if_pos hlen]
        exact Or.inl rfl
      rw [if_neg hlen]
      rcases rest with _ | ⟨t1, rest⟩
      · exact Or.inl rfl
      rcases rest with _ | ⟨t2, rest⟩
      · exact Or.inl rfl
      rcases rest with _ | ⟨t3, ts⟩
      · exact Or.inl rfl
      simp only []
      rcases g1 : pyInt? (normalize_token t1) with _ | i1
      · exact Or.inl rfl
      rcases g2 : pyInt? (normalize_token t2) with _ | i2
      · exact Or.inl rfl
      rcases g3 : pyInt? (normalize_token t3) with _ | i3
      · exact Or.inl rfl
      simp only []
      by_cases hb : 0 ≤ i1 - 1 ∧ i1 - 1 < (st.vertices.length : Int) ∧
          0 ≤ i2 - 1 ∧ i2 - 1 < (st.vertices.length : Int) ∧
          0 ≤ i3 - 1 ∧ i3 - 1 < (st.vertices.length : Int)
      · rw [if_pos hb]
        exact Or.inr (Or.inr ⟨(i1 - 1, i2 - 1, i3 - 1), hb, rfl⟩)
      · rw [if_neg hb]
        exact Or.inl rfl
    · rw [if_neg he]
      exact Or.inl rfl

theorem DocInv_emptyDoc : DocInv emptyDoc := by
  refine ⟨rfl, ?_, ?_, rfl, ?_⟩
  · intro id h
    cases h
  · exact List.nodup_nil
  · intro t h
    cases h

theorem DocInv_processLine {st : GeometryDoc} (h : DocInv st) (raw : List Char) :
    DocInv (processLine st raw) := by
  obtain ⟨hlen, hwf, hnd, hmap, hbnd⟩ := h
  rcases processLine_shape st raw with heq | ⟨co, id, hidwf, hfresh, heq⟩ |
    ⟨j, hjb, heq⟩
  · rw [heq]
    exact ⟨hlen, hwf, hnd, hmap, hbnd⟩
  · rw [heq]
    refine ⟨by simp [hlen], ?_, ?_, by simp [hmap], ?_⟩
    · intro i hi
      rcases List.mem_append.mp hi with hi | hi
      · exact hwf i hi
      · rw [List.mem_singleton.mp hi]
        exact hidwf
    · rw [List.nodup_append]
      refine ⟨hnd, List.nodup_singleton _, ?_⟩
      intro a ha hb2
      rw [List.mem_singleton] at hb2
      subst hb2
      have hmem : a ∈ st.node_id_to_index.map Prod.fst := by
        rw [hmap]
        exact ha
      exact hasKey_false_not_mem hfresh hmem
    · intro t ht
      have hb := hbnd t ht
      simp only [List.length_append, List.length_cons, List.length_nil]
      push_cast
      push_cast at hb
      omega
  · rw [heq]
    refine ⟨hlen, hwf, hnd, hmap, ?_⟩
    intro t ht
    rcases List.mem_append.mp ht with ht | ht
    · exact hbnd t ht
    · rw [List.mem_singleton.mp ht]
      exact hjb

theorem parse_DocInv (t : List Char) : DocInv (parse_vpg_text t) := by
  unfold parse_vpg_text
  exact List.foldlRecOn _ _ _ DocInv_emptyDoc
    (fun st hst raw _ => DocInv_processLine hst raw)

/-! ## C1 groundwork: the serializer scan on well-formed ids -/

theorem WfId_nId (k : Nat) : WfId (nId k) := by
  refine ⟨by simp [nId], rfl, ?_, ?_⟩
  · intro c hc
    rcases List.mem_cons.mp hc with rfl | hc
    · decide
    · exact natDigits_not_space k hc
  · show ('n' :: natDigits k).map pyLower = 'n' :: natDigits k
    simp only [List.map_cons]
    rw [show pyLower 'n' = 'n' from by decide]
    rw [map_pyLower_fix]
    intro c hc
    have hd := natDigits_all_isDig k
    rw [List.all_eq_true] at hd
    exact pyLower_of_isDig (hd c hc)

theorem denseIds_succ (k n : Nat) : denseIds k (n + 1) = nId k :: denseIds (k + 1) n := by
  unfold denseIds
  rw [List.range'_succ, List.map_cons]

theorem denseIds_length (k n : Nat) : (denseIds k n).length = n := by
  simp [denseIds]

theorem denseIds_nodup (k n : Nat) : (denseIds k n).Nodup := by
  unfold denseIds
  exact (List.nodup_range' k n).map (fun a b hab => nId_inj hab)

theorem decodedId_wf {v : BMVert} {id : List Char} (hv : v.stamped = some id)
    (hwf : WfId id) : decodedId v = id := by
  unfold decodedId
  rw [hv]
  simp only []
  rw [if_neg hwf.1]
  exact pyStrip_eq_self
    (fun hd hh => hwf.2.2.1 hd (mem_of_head?_eq hh))
    (fun lst hl => hwf.2.2.1 lst (List.mem_of_mem_getLast? hl))

theorem wfId_cons {id : List Char} (hwf : WfId id) : id = 'n' :: id.drop 1 := by
  rcases id with _ | ⟨c, t⟩
  · exact absurd rfl hwf.1
  · have := hwf.2.1
    simp only [List.head?_cons, Option.some_inj] at this
    rw [this]
    rfl

theorem scanStep_wf {v : BMVert} {id : List Char} (hv : v.stamped = some id)
    (hwf : WfId id) (k : Nat) (st : ScanSt) (hseen : id ∉ st.seen_numeric) :
    scanStep k st v =
      { entries := st.entries ++ [(v, id)]
        numeric_pattern := if ValidPat id then st.numeric_pattern else false
        needs_renumber := if id = nId (k + 1) then st.needs_renumber else true
        seen_numeric := id :: st.seen_numeric } := by
  unfold scanStep
  simp only []
  rw [decodedId_wf hv hwf]
  rw [if_neg hwf.1]
  have hhead : id.head?.map pyLower = some 'n' := by
    rw [hwf.2.1]
    show some (pyLower 'n') = some 'n'
    rw [show pyLower 'n' = 'n' from by decide]
  by_cases hp : ValidPat id
  · have hc : ¬(id.length < 2 ∨ ¬id.head?.map pyLower = some 'n' ∨
        pyIsdigit (id.drop 1) = false) := by
      rintro (h | h | h)
      · have := hp.1
        omega
      · exact h hhead
      · rw [hp.2] at h
        cases h
    rw [if_neg hc]
    rw [if_neg (not_not_intro (wfId_cons hwf))]
    simp only []
    rw [if_neg hseen]
    rw [if_pos hp]
    by_cases he : id = nId (k + 1)
    · rw [if_neg (not_not_intro he), if_pos he]
    · rw [if_pos he, if_neg he]
  · have hc : id.length < 2 ∨ ¬id.head?.map pyLower = some 'n' ∨
        pyIsdigit (id.drop 1) = false := by
      unfold ValidPat at hp
      push_neg at hp
      by_cases h2 : 2 ≤ id.length
      · right
        right
        rw [Bool.eq_false_iff]
        exact hp h2
      · left
        omega
    rw [if_pos hc]
    simp only []
    rw [if_neg hseen]
    rw [if_neg hp]
    by_cases he : id = nId (k + 1)
    · rw [if_neg (not_not_intro he), if_pos he]
    · rw [if_pos he, if_neg he]

theorem scanVerts_wf {vs : List BMVert} {ids : List (List Char)}
    (hst : List.Forall₂ (fun v id => v.stamped = some id) vs ids) :
    ∀ (k : Nat) (st : ScanSt),
      (∀ id ∈ ids, WfId id) → ids.Nodup →
      (∀ id ∈ ids, id ∉ st.seen_numeric) →
      (scanVerts k st vs).entries = st.entries ++ vs.zip ids ∧
      ((scanVerts k st vs).numeric_pattern = true ↔
        (st.numeric_pattern = true ∧ ∀ id ∈ ids, ValidPat id)) ∧
      ((scanVerts k st vs).needs_renumber = true ↔
        (st.needs_renumber = true ∨ ids ≠ denseIds (k + 1) ids.length)) ∧
      (scanVerts k st vs).seen_numeric = ids.reverse ++ st.seen_numeric := by
  induction hst with
  | nil =>
    intro k st _ _ _
    refine ⟨by simp [scanVerts], by simp [scanVerts], ?_, by simp [scanVerts]⟩
    simp [scanVerts, denseIds]
  | @cons v id vs ids hab htail ih =>
    intro k st hwf hnd hfresh
    show (scanVerts (k + 1) (scanStep k st v) vs).entries =
        st.entries ++ (v :: vs).zip (id :: ids) ∧
      ((scanVerts (k + 1) (scanStep k st v) vs).numeric_pattern = true ↔
        (st.numeric_pattern = true ∧ ∀ i ∈ id :: ids, ValidPat i)) ∧
      ((scanVerts (k + 1) (scanStep k st v) vs).needs_renumber = true ↔
        (st.needs_renumber = true ∨ id :: ids ≠ denseIds (k + 1) (id :: ids).length)) ∧
      (scanVerts (k + 1) (scanStep k st v) vs).seen_numeric =
        (id :: ids).reverse ++ st.seen_numeric
    rw [scanStep_wf hab (hwf id (List.mem_cons_self _ _)) k st
      (hfresh id (List.mem_cons_self _ _))]
    have ih2 := ih (k + 1)
      { entries := st.entries ++ [(v, id)]
        numeric_pattern := if ValidPat id then st.numeric_pattern else false
        needs_renumber := if id = nId (k + 1) then st.needs_renumber else true
        seen_numeric := id :: st.seen_numeric }
      (fun i hi => hwf i (List.mem_cons_of_mem _ hi))
      (List.nodup_cons.mp hnd).2
      (by
        intro i hi hmem
        rcases List.mem_cons.mp hmem with rfl | hmem
        · exact (List.nodup_cons.mp hnd).1 hi
        · exact hfresh i (List.mem_cons_of_mem _ hi) hmem)
    refine ⟨?_, ?_, ?_, ?_⟩
    · rw [ih2.1]
      simp [List.append_assoc]
    · rw [ih2.2.1]
      by_cases hp : ValidPat id
      · simp only [if_pos hp, List.forall_mem_cons]
        constructor
        · rintro ⟨h1, h2⟩
          exact ⟨h1, hp, h2⟩
        · rintro ⟨h1, _, h2⟩
          exact ⟨h1, h2⟩
      · simp only [if_neg hp, List.forall_mem_cons]
        constructor
        · rintro ⟨h1, _⟩
          cases h1
        · rintro ⟨_, h2, _⟩
          exact absurd h2 hp
    · rw [ih2.2.2.1]
      simp only [List.length_cons]
      rw [denseIds_succ]
      by_cases he : id = nId (k + 1)
      · subst he
        simp only [if_pos rfl]
        constructor
        · rintro (h | h)
          · exact Or.inl h
          · refine Or.inr ?_
            intro hc
            exact h (List.cons_eq_cons.mp hc).2
        · rintro (h | h)
          · exact Or.inl h
          · refine Or.inr ?_
            intro hc
            exact h (by rw [hc, denseIds_length])
      · simp only [if_neg he]
        constructor
        · intro _
          refine Or.inr ?_
          intro hc
          exact he (List.cons_eq_cons.mp hc).1
        · intro _
          exact Or.inl trivial
    · rw [ih2.2.2.2]
      simp [List.append_assoc]

theorem forall2_docToMesh (ps : List Pos3) (ids : List (List Char))
    (h : ps.length = ids.length) :
    List.Forall₂ (fun v id => v.stamped = some id)
      ((ps.zip ids).map
        (fun p => ({ stamped := some p.2, co := p.1 } : BMVert))) ids := by
  induction ps generalizing ids with
  | nil =>
    cases ids with
    | nil => simp
    | cons id ids => cases h
  | cons p ps ih =>
    cases ids with
    | nil => cases h
    | cons id ids =>
      simp only [List.zip_cons_cons, List.map_cons]
      exact List.Forall₂.cons rfl (ih ids (by simpa using h))

theorem enumFrom_renumber (es : List (BMVert × List Char)) :
    ∀ n, (es.enumFrom n).map (fun p => (p.2.1, nId (p.1 + 1))) =
      (es.map Prod.fst).zip (denseIds (n + 1) es.length) := by
  induction es with
  | nil =>
    intro n
    rfl
  | cons e es ih =>
    intro n
    show (e.1, nId (n + 1)) :: (es.enumFrom (n + 1)).map _ = _
    rw [ih (n + 1)]
    simp only [List.map_cons, List.length_cons]
    rw [denseIds_succ, List.zip_cons_cons]

theorem vertexEntries_wf {vs : List BMVert} {ids : List (List Char)}
    (hst : List.Forall₂ (fun v id => v.stamped = some id) vs ids)
    (hwf : ∀ id ∈ ids, WfId id) (hnd : ids.Nodup) :
    vertexEntries vs =
      if (∀ id ∈ ids, ValidPat id) ∧ ids ≠ denseIds 1 ids.length
      then vs.zip (denseIds 1 ids.length)
      else vs.zip ids := by
  have hlen := List.Forall₂.length_eq hst
  have h := scanVerts_wf hst 0 initScan hwf hnd (by intro id _ hc; simp [initScan] at hc)
  unfold vertexEntries
  by_cases hcond : (∀ id ∈ ids, ValidPat id) ∧ ids ≠ denseIds 1 ids.length
  · rw [if_pos hcond]
    have hflag : (scanVerts 0 initScan vs).numeric_pattern = true ∧
        (scanVerts 0 initScan vs).needs_renumber = true := by
      constructor
      · rw [h.2.1]
        exact ⟨rfl, hcond.1⟩
      · rw [h.2.2.1]
        exact Or.inr hcond.2
    rw [if_pos hflag, h.1]
    rw [show initScan.entries = ([] : List (BMVert × List Char)) from rfl,
      List.nil_append]
    rw [show (vs.zip ids).enum = (vs.zip ids).enumFrom 0 from rfl]
    rw [enumFrom_renumber]
    rw [List.map_fst_zip vs ids (le_of_eq hlen)]
    have hzl : (vs.zip ids).length = ids.length := by
      rw [List.length_zip, hlen, Nat.min_self]
    rw [hzl]
  · rw [if_neg hcond]
    have hflag : ¬((scanVerts 0 initScan vs).numeric_pattern = true ∧
        (scanVerts 0 initScan vs).needs_renumber = true) := by
      intro hc
      apply hcond
      constructor
      · exact ((h.2.1).mp hc.1).2
      · rcases (h.2.2.1).mp hc.2 with hfalse | hne
        · exact absurd hfalse (by simp [initScan])
        · exact hne
    rw [if_neg hflag, h.1]
    rw [show initScan.entries = ([] : List (BMVert × List Char)) from rfl,
      List.nil_append]

/-! ## C1 groundwork: the emitted lines parse back -/

theorem intStr_mem_toNat (i : Int) :
    ∀ c ∈ intStr i, c.toNat = 45 ∨ (48 ≤ c.toNat ∧ c.toNat ≤ 57) := by
  intro c hc
  unfold intStr at hc
  by_cases h : i < 0
  · rw [if_pos h] at hc
    rcases List.mem_cons.mp hc with rfl | hc
    · left
      rfl
    · right
      exact natDigits_mem_toNat _ c hc
  · rw [if_neg h] at hc
    right
    exact natDigits_mem_toNat _ c hc

theorem intStr_ne_nil (i : Int) : intStr i ≠ [] := by
  unfold intStr
  by_cases h : i < 0
  · rw [if_pos h]
    simp
  · rw [if_neg h]
    exact natDigits_ne_nil _

theorem intStr_nospace (i : Int) : ∀ c ∈ intStr i, isPySpace c = false := by
  intro c hc
  have h := intStr_mem_toNat i c hc
  rcases hs : isPySpace c with _ | _
  · rfl
  · have := (isPySpace_iff c).mp hs
    omega

theorem printFloat_ne_nil (v : PyFloat) : printFloat v ≠ [] := by
  unfold printFloat
  simp

theorem printFloat_nospace (v : PyFloat) : ∀ c ∈ printFloat v, isPySpace c = false := by
  intro c hc
  have h := printFloat_mem_toNat v c hc
  rcases hs : isPySpace c with _ | _
  · rfl
  · have := (isPySpace_iff c).mp hs
    omega

theorem normalize_intStr (i : Int) : normalize_token (intStr i) = intStr i := by
  have hst : pyStrip (intStr i) = intStr i :=
    pyStrip_eq_self
      (fun hd hh => intStr_nospace i hd (mem_of_head?_eq hh))
      (fun lst hl => intStr_nospace i lst (List.mem_of_mem_getLast? hl))
  have hcomma : ∀ c ∈ intStr i, (c == ',') = false := by
    intro c hc
    have h := intStr_mem_toNat i c hc
    rw [beq_eq_false_iff_ne]
    intro he
    subst he
    have h44 : (',' : Char).toNat = 44 := rfl
    omega
  unfold normalize_token
  rw [hst]
  rw [stripCommas_eq_self
    (fun hd hh => hcomma hd (mem_of_head?_eq hh))
    (fun lst hl => hcomma lst (List.mem_of_mem_getLast? hl))]
  rw [hst]

theorem vline_head? (id : List Char) (co : Pos3) (h : id ≠ []) :
    (vline id co).head? = id.head? := by
  rcases id with _ | ⟨c, t⟩
  · exact absurd rfl h
  · rfl

theorem vline_getLast? (id : List Char) (co : Pos3) :
    (vline id co).getLast? = (printFloat co.z).getLast? := by
  unfold vline
  rw [getLast?_append_right _ (by simp)]
  rw [getLast?_cons_of_ne _ (by simp)]
  rw [getLast?_append_right _ (by simp)]
  rw [getLast?_cons_of_ne _ (by simp)]
  rw [getLast?_append_right _ (by simp)]
  rw [getLast?_cons_of_ne _ (printFloat_ne_nil co.z)]

theorem pyStrip_vline (id : List Char) (co : Pos3) (hid : id ≠ [])
    (hsp : ∀ c ∈ id, isPySpace c = false) :
    pyStrip (vline id co) = vline id co := by
  apply pyStrip_eq_self
  · intro hd hh
    rw [vline_head? id co hid] at hh
    exact hsp hd (mem_of_head?_eq hh)
  · intro lst hl
    rw [vline_getLast?] at hl
    exact printFloat_nospace co.z lst (List.mem_of_mem_getLast? hl)

theorem pySplit_vline (id : List Char) (co : Pos3) (hid : id ≠ [])
    (hsp : ∀ c ∈ id, isPySpace c = false) :
    pySplit (vline id co) =
      [id, printFloat co.x, printFloat co.y, printFloat co.z] := by
  unfold vline
  rw [pySplit_sep hsp hid (by decide) _]
  rw [pySplit_sep (printFloat_nospace co.x) (printFloat_ne_nil co.x) (by decide) _]
  rw [pySplit_sep (printFloat_nospace co.y) (printFloat_ne_nil co.y) (by decide) _]
  rw [pySplit_single (printFloat_nospace co.z) (printFloat_ne_nil co.z)]

theorem processLine_vline (st : GeometryDoc) (id : List Char) (co : Pos3)
    (hwf : WfId id) (hfresh : hasKey st.node_id_to_index id = false) :
    processLine st (vline id co) =
      { st with
        vertices := st.vertices ++ [co]
        node_index_to_id := st.node_index_to_id ++ [id]
        node_id_to_index := st.node_id_to_index ++ [(id, st.vertices.length)] } := by
  have hstrip := pyStrip_vline id co hwf.1 hwf.2.2.1
  have hhead : (vline id co).head? = some 'n' := by
    rw [vline_head? id co hwf.1]
    exact hwf.2.1
  have hkey : (id.map pyLower).head? = some 'n' := by
    rw [hwf.2.2.2]
    exact hwf.2.1
  have hskip : ¬(pyStrip (vline id co) = [] ∨
      (pyStrip (vline id co)).head? = some '#') := by
    rw [hstrip]
    rintro (h | h)
    · rw [h] at hhead
      exact absurd hhead (by decide)
    · rw [hhead] at h
      exact absurd h (by decide)
  unfold processLine
  rw [if_neg hskip, hstrip, pySplit_vline id co hwf.1 hwf.2.2.1]
  simp only [hkey, List.length_cons, List.length_nil]
  rw [if_pos trivial, if_neg (by omega)]
  rw [parseFloatTok_printFloat co.x, parseFloatTok_printFloat co.y,
    parseFloatTok_printFloat co.z]
  simp only []
  rw [hwf.2.2.2]
  rw [if_neg (by simp [hfresh])]

theorem eTok_nospace (k : Nat) : ∀ c ∈ 'e' :: natDigits k, isPySpace c = false := by
  intro c hc
  rcases List.mem_cons.mp hc with rfl | hc
  · decide
  · exact natDigits_not_space k hc

theorem fline_head? (k : Nat) (t : Int × Int × Int) :
    (fline k t).head? = some 'e' := rfl

theorem fline_getLast? (k : Nat) (t : Int × Int × Int) :
    (fline k t).getLast? = (intStr (t.2.2 + 1)).getLast? := by
  show ((('e' :: natDigits k) ++ ' ' ::
    (intStr (t.1 + 1) ++ ' ' ::
      (intStr (t.2.1 + 1) ++ ' ' :: intStr (t.2.2 + 1))))).getLast? = _
  rw [getLast?_append_right _ (by simp)]
  rw [getLast?_cons_of_ne _ (by simp)]
  rw [getLast?_append_right _ (by simp)]
  rw [getLast?_cons_of_ne _ (by simp)]
  rw [getLast?_append_right _ (by simp)]
  rw [getLast?_cons_of_ne _ (intStr_ne_nil _)]

theorem pyStrip_fline (k : Nat) (t : Int × Int × Int) :
    pyStrip (fline k t) = fline k t := by
  apply pyStrip_eq_self
  · intro hd hh
    rw [fline_head?] at hh
    injection hh with h
    rw [← h]
    decide
  · intro lst hl
    rw [fline_getLast?] at hl
    exact intStr_nospace _ lst (List.mem_of_mem_getLast? hl)

theorem pySplit_fline (k : Nat) (t : Int × Int × Int) :
    pySplit (fline k t) =
      ['e' :: natDigits k, intStr (t.1 + 1), intStr (t.2.1 + 1),
        intStr (t.2.2 + 1)] := by
  show pySplit ((('e' :: natDigits k) ++ ' ' ::
    (intStr (t.1 + 1) ++ ' ' ::
      (intStr (t.2.1 + 1) ++ ' ' :: intStr (t.2.2 + 1))))) = _
  rw [pySplit_sep (eTok_nospace k) (by simp) (by decide) _]
  rw [pySplit_sep (intStr_nospace _) (intStr_ne_nil _) (by decide) _]
  rw [pySplit_sep (intStr_nospace _) (intStr_ne_nil _) (by decide) _]
  rw [pySplit_single (intStr_nospace _) (intStr_ne_nil _)]

theorem fline_key (k : Nat) :
    ('e' :: natDigits k).map pyLower = 'e' :: natDigits k := by
  simp only [List.map_cons]
  rw [show pyLower 'e' = 'e' from by decide]
  rw [map_pyLower_fix]
  intro c hc
  have hd := natDigits_all_isDig k
  rw [List.all_eq_true] at hd
  exact pyLower_of_isDig (hd c hc)

theorem processLine_fline (st : GeometryDoc) (k : Nat) (t : Int × Int × Int)
    (hb : 0 ≤ t.1 ∧ t.1 < (st.vertices.length : Int) ∧
      0 ≤ t.2.1 ∧ t.2.1 < (st.vertices.length : Int) ∧
      0 ≤ t.2.2 ∧ t.2.2 < (st.vertices.length : Int)) :
    processLine st (fline k t) = { st with indices := st.indices ++ [t] } := by
  have hstrip := pyStrip_fline k t
  have hkey : (('e' :: natDigits k).map pyLower).head? = some 'e' := by
    rw [fline_key]
    rfl
  have hskip : ¬(pyStrip (fline k t) = [] ∨
      (pyStrip (fline k t)).head? = some '#') := by
    rw [hstrip]
    rintro (h | h)
    · have := fline_head? k t
      rw [h] at this
      exact absurd this (by decide)
    · rw [fline_head?] at h
      exact absurd h (by decide)
  unfold processLine
  rw [if_neg hskip, hstrip, pySplit_fline k t]
  simp only [List.length_cons, List.length_nil]
  rw [if_neg (by rw [hkey]; decide), if_pos hkey, if_neg (by omega)]
  rw [normalize_intStr (t.1 + 1), normalize_intStr (t.2.1 + 1),
    normalize_intStr (t.2.2 + 1), pyInt?_intStr (t.1 + 1),
    pyInt?_intStr (t.2.1 + 1), pyInt?_intStr (t.2.2 + 1)]
  simp only []
  simp only [Int.add_sub_cancel]
  rw [if_pos hb]

/-! ## C1 groundwork: folding the parser over the emitted lines -/

theorem foldl_vlines (qs : List (Pos3 × List Char)) :
    ∀ (st : GeometryDoc),
      (∀ q ∈ qs, WfId q.2) → (qs.map Prod.snd).Nodup →
      (∀ q ∈ qs, hasKey st.node_id_to_index q.2 = false) →
      (qs.map (fun q => vline q.2 q.1)).foldl processLine st =
        { st with
          vertices := st.vertices ++ qs.map Prod.fst
          node_index_to_id := st.node_index_to_id ++ qs.map Prod.snd
          node_id_to_index := st.node_id_to_index ++
            (qs.map Prod.snd).zip (List.range' st.vertices.length qs.length) } := by
  induction qs with
  | nil =>
    intro st _ _ _
    simp
  | cons q qs ih =>
    intro st hwf hnd hfresh
    rw [List.map_cons, List.foldl_cons,
      processLine_vline st q.2 q.1 (hwf q (List.mem_cons_self _ _))
        (hfresh q (List.mem_cons_self _ _))]
    rw [ih { st with
        vertices := st.vertices ++ [q.1]
        node_index_to_id := st.node_index_to_id ++ [q.2]
        node_id_to_index := st.node_id_to_index ++ [(q.2, st.vertices.length)] }
      (fun p hp => hwf p (List.mem_cons_of_mem _ hp))
      (by rw [List.map_cons] at hnd; exact (List.nodup_cons.mp hnd).2)
      (by
        intro p hp
        simp only []
        rw [hasKey_append]
        have h1 := hfresh p (List.mem_cons_of_mem _ hp)
        have h2 : ¬(q.2 = p.2) := by
          intro he
          rw [List.map_cons] at hnd
          exact (List.nodup_cons.mp hnd).1 (he ▸ List.mem_map_of_mem Prod.snd hp)
        simp [h1, h2])]
    simp only [List.map_cons, List.length_append, List.length_cons, List.length_nil,
      List.range'_succ, List.zip_cons_cons]
    simp [List.append_assoc]

theorem foldl_flines (ts : List (Int × Int × Int)) :
    ∀ (n : Nat) (st : GeometryDoc),
      (∀ t ∈ ts, 0 ≤ t.1 ∧ t.1 < (st.vertices.length : Int) ∧
        0 ≤ t.2.1 ∧ t.2.1 < (st.vertices.length : Int) ∧
        0 ≤ t.2.2 ∧ t.2.2 < (st.vertices.length : Int)) →
      ((ts.enumFrom n).map (fun p => fline (p.1 + 1) p.2)).foldl processLine st =
        { st with indices := st.indices ++ ts } := by
  induction ts with
  | nil =>
    intro n st _
    simp
  | cons t ts ih =>
    intro n st hb
    rw [show (t :: ts).enumFrom n = (n, t) :: ts.enumFrom (n + 1) from rfl]
    rw [List.map_cons, List.foldl_cons]
    rw [processLine_fline st (n + 1) t (hb t (List.mem_cons_self _ _))]
    rw [ih (n + 1) { st with indices := st.indices ++ [t] }
      (fun u hu => hb u (List.mem_cons_of_mem _ hu))]
    simp [List.append_assoc]

theorem vertexLinesOf_mk_zip (ps : List Pos3) :
    ∀ (ids eids : List (List Char)), ps.length = ids.length →
      vertexLinesOf
        (((ps.zip ids).map
          (fun p => ({ stamped := some p.2, co := p.1 } : BMVert))).zip eids) =
        (ps.zip eids).map (fun q => vline q.2 q.1) := by
  induction ps with
  | nil =>
    intro ids eids _
    rfl
  | cons p ps ih =>
    intro ids eids hlen
    cases ids with
    | nil => cases hlen
    | cons id ids =>
      cases eids with
      | nil => rfl
      | cons eid eids =>
        simp only [List.zip_cons_cons, List.map_cons]
        show vline eid p :: _ = vline eid p :: _
        exact congrArg (List.cons (vline eid p)) (ih ids eids (by simpa using hlen))

theorem flatten_map_singleton {α β : Type _} (f : α → β) (l : List α) :
    (l.map (fun a => [f a])).flatten = l.map f := by
  induction l with
  | nil => rfl
  | cons a l ih =>
    simp only [List.map_cons, List.flatten_cons, ih]
    rfl

theorem faceLinesOf_docToMesh (ts : List (Int × Int × Int)) :
    faceLinesOf (ts.map (fun t => [t.1, t.2.1, t.2.2])) =
      (ts.enumFrom 0).map (fun p => fline (p.1 + 1) p.2) := by
  unfold faceLinesOf
  have h1 : (ts.map (fun t => [t.1, t.2.1, t.2.2])).map faceTris =
      ts.map (fun t => [t]) := by
    rw [List.map_map]
    rfl
  rw [h1, flatten_map_singleton (fun t => t) ts]
  rw [show ts.map (fun t => t) = ts from List.map_id ts]
  rfl

/-! ## C1 groundwork: reparsing the full serialized text -/

theorem not_nl_of_nospace {l : List Char} (h : ∀ c ∈ l, isPySpace c = false) :
    '\n' ∉ l :=
  fun hm => absurd (h _ hm) (by decide)

theorem vline_ne_nil (id : List Char) (co : Pos3) : vline id co ≠ [] := by
  unfold vline
  rcases id with _ | ⟨c, t⟩
  · simp
  · simp

theorem fline_ne_nil (k : Nat) (t : Int × Int × Int) : fline k t ≠ [] := by
  unfold fline
  simp

theorem vline_no_nl (id : List Char) (co : Pos3)
    (hsp : ∀ c ∈ id, isPySpace c = false) : '\n' ∉ vline id co := by
  intro h
  unfold vline at h
  rcases List.mem_append.mp h with h | h
  · exact not_nl_of_nospace hsp h
  rcases List.mem_cons.mp h with h | h
  · exact absurd h (by decide)
  rcases List.mem_append.mp h with h | h
  · exact not_nl_of_nospace (printFloat_nospace co.x) h
  rcases List.mem_cons.mp h with h | h
  · exact absurd h (by decide)
  rcases List.mem_append.mp h with h | h
  · exact not_nl_of_nospace (printFloat_nospace co.y) h
  rcases List.mem_cons.mp h with h | h
  · exact absurd h (by decide)
  · exact not_nl_of_nospace (printFloat_nospace co.z) h

theorem fline_no_nl (k : Nat) (t : Int × Int × Int) : '\n' ∉ fline k t := by
  intro h
  unfold fline at h
  rcases List.mem_cons.mp h with h | h
  · exact absurd h (by decide)
  rcases List.mem_append.mp h with h | h
  · exact not_nl_of_nospace (fun c hc => natDigits_not_space k hc) h
  rcases List.mem_cons.mp h with h | h
  · exact absurd h (by decide)
  rcases List.mem_append.mp h with h | h
  · exact not_nl_of_nospace (intStr_nospace _) h
  rcases List.mem_cons.mp h with h | h
  · exact absurd h (by decide)
  rcases List.mem_append.mp h with h | h
  · exact not_nl_of_nospace (intStr_nospace _) h
  rcases List.mem_cons.mp h with h | h
  · exact absurd h (by decide)
  · exact not_nl_of_nospace (intStr_nospace _) h

theorem reparse_lines (ps : List Pos3) (eids : List (List Char))
    (ts : List (Int × Int × Int))
    (hewf : ∀ id ∈ eids, WfId id) (hend : eids.Nodup)
    (hlen : ps.length = eids.length)
    (hb : ∀ u ∈ ts, 0 ≤ u.1 ∧ u.1 < (ps.length : Int) ∧
      0 ≤ u.2.1 ∧ u.2.1 < (ps.length : Int) ∧
      0 ≤ u.2.2 ∧ u.2.2 < (ps.length : Int)) :
    parse_vpg_text (joinNl
      ((ps.zip eids).map (fun q => vline q.2 q.1) ++
        (ts.enumFrom 0).map (fun pr => fline (pr.1 + 1) pr.2))) =
      { vertices := ps
        indices := ts
        node_index_to_id := eids
        node_id_to_index := eids.zip (List.range' 0 ps.length) } := by
  rcases ps with _ | ⟨p, ps'⟩
  · rcases eids with _ | ⟨e0, erest⟩
    · have hts : ts = [] := by
        rw [List.eq_nil_iff_forall_not_mem]
        intro u hu
        have h := hb u hu
        simp only [List.length_nil] at h
        push_cast at h
        omega
      subst hts
      decide
    · simp at hlen
  · rcases eids with _ | ⟨e0, erest⟩
    · simp at hlen
    · have hfst : ((p :: ps').zip (e0 :: erest)).map Prod.fst = p :: ps' :=
        List.map_fst_zip _ _ (le_of_eq hlen)
      have hsnd : ((p :: ps').zip (e0 :: erest)).map Prod.snd = e0 :: erest :=
        List.map_snd_zip _ _ (le_of_eq hlen.symm)
      have hzlen : ((p :: ps').zip (e0 :: erest)).length = (p :: ps').length := by
        rw [List.length_zip, hlen, Nat.min_self, ← hlen]
      have hne : ((p :: ps').zip (e0 :: erest)).map (fun q => vline q.2 q.1) ++
          (ts.enumFrom 0).map (fun pr => fline (pr.1 + 1) pr.2) ≠ [] := by
        simp [List.zip_cons_cons]
      have hnl : ∀ l ∈ ((p :: ps').zip (e0 :: erest)).map (fun q => vline q.2 q.1) ++
          (ts.enumFrom 0).map (fun pr => fline (pr.1 + 1) pr.2), '\n' ∉ l := by
        intro l hl
        rcases List.mem_append.mp hl with h | h
        · rcases List.mem_map.mp h with ⟨q, hq, rfl⟩
          exact vline_no_nl q.2 q.1 (hewf q.2 (List.of_mem_zip hq).2).2.2.1
        · rcases List.mem_map.mp h with ⟨pr, _, rfl⟩
          exact fline_no_nl (pr.1 + 1) pr.2
      have hnonempty : ∀ l ∈ ((p :: ps').zip (e0 :: erest)).map
          (fun q => vline q.2 q.1) ++
          (ts.enumFrom 0).map (fun pr => fline (pr.1 + 1) pr.2), l ≠ [] := by
        intro l hl
        rcases List.mem_append.mp hl with h | h
        · rcases List.mem_map.mp h with ⟨q, _, rfl⟩
          exact vline_ne_nil q.2 q.1
        · rcases List.mem_map.mp h with ⟨pr, _, rfl⟩
          exact fline_ne_nil (pr.1 + 1) pr.2
      have hlast : (((p :: ps').zip (e0 :: erest)).map (fun q => vline q.2 q.1) ++
          (ts.enumFrom 0).map (fun pr => fline (pr.1 + 1) pr.2)).getLast? ≠
            some [] := by
        intro h
        exact hnonempty [] (List.mem_of_mem_getLast? h) rfl
      unfold parse_vpg_text
      rw [pySplitlines_joinNl hne hnl hlast, List.foldl_append]
      rw [foldl_vlines ((p :: ps').zip (e0 :: erest)) emptyDoc
        (fun q hq => hewf q.2 (List.of_mem_zip hq).2)
        (by rw [hsnd]; exact hend)
        (fun q hq => rfl)]
      rw [hfst, hsnd, hzlen]
      rw [show (emptyDoc.vertices : List Pos3) = [] from rfl,
        show (emptyDoc.node_index_to_id : List (List Char)) = [] from rfl,
        show (emptyDoc.node_id_to_index : List (List Char × Nat)) = [] from rfl]
      simp only [List.nil_append, List.length_nil]
      rw [foldl_flines ts 0
        { vertices := p :: ps'
          indices := emptyDoc.indices
          node_index_to_id := e0 :: erest
          node_id_to_index := (e0 :: erest).zip (List.range' 0 (p :: ps').length) }
        (fun u hu => hb u hu)]
      simp [emptyDoc]

/-! ## C1 groundwork: the serialized text of a parsed document -/

theorem serializeDoc_lines (d : GeometryDoc)
    (hlen : d.node_index_to_id.length = d.vertices.length)
    (hwf : ∀ id ∈ d.node_index_to_id, WfId id)
    (hnd : d.node_index_to_id.Nodup) :
    serializeDoc d = joinNl
      ((d.vertices.zip (if (∀ id ∈ d.node_index_to_id, ValidPat id) ∧
          d.node_index_to_id ≠ denseIds 1 d.node_index_to_id.length
        then denseIds 1 d.node_index_to_id.length
        else d.node_index_to_id)).map (fun q => vline q.2 q.1) ++
        (d.indices.enumFrom 0).map (fun pr => fline (pr.1 + 1) pr.2)) := by
  unfold serializeDoc mesh_to_vpg_text
  simp only []
  congr 1
  unfold vpgLines
  congr 1
  · have hf2 := forall2_docToMesh d.vertices d.node_index_to_id hlen.symm
    have hent := vertexEntries_wf hf2 hwf hnd
    show vertexLinesOf (vertexEntries (docToMesh d).verts) = _
    rw [show (docToMesh d).verts = (d.vertices.zip d.node_index_to_id).map
        (fun pr => ({ stamped := some pr.2, co := pr.1 } : BMVert)) from rfl]
    rw [hent]
    by_cases hc : (∀ id ∈ d.node_index_to_id, ValidPat id) ∧
        d.node_index_to_id ≠ denseIds 1 d.node_index_to_id.length
    · rw [if_pos hc, if_pos hc]
      exact vertexLinesOf_mk_zip d.vertices d.node_index_to_id
        (denseIds 1 d.node_index_to_id.length) hlen.symm
    · rw [if_neg hc, if_neg hc]
      exact vertexLinesOf_mk_zip d.vertices d.node_index_to_id
        d.node_index_to_id hlen.symm
  · show faceLinesOf (docToMesh d).faces = _
    rw [show (docToMesh d).faces =
        d.indices.map (fun u => [u.1, u.2.1, u.2.2]) from rfl]
    exact faceLinesOf_docToMesh d.indices

theorem roundtrip_of_inv (d : GeometryDoc) (hinv : DocInv d) :
    (parse_vpg_text (serializeDoc d)).vertices = d.vertices ∧
    (parse_vpg_text (serializeDoc d)).indices = d.indices ∧
    (parse_vpg_text (serializeDoc d)).node_index_to_id =
      (if (∀ id ∈ d.node_index_to_id, ValidPat id) ∧
          d.node_index_to_id ≠ denseIds 1 d.node_index_to_id.length
       then denseIds 1 d.node_index_to_id.length
       else d.node_index_to_id) := by
  obtain ⟨hlen, hwf, hnd, hmap, hbnd⟩ := hinv
  have hewf : ∀ id ∈ (if (∀ id ∈ d.node_index_to_id, ValidPat id) ∧
      d.node_index_to_id ≠ denseIds 1 d.node_index_to_id.length
    then denseIds 1 d.node_index_to_id.length
    else d.node_index_to_id), WfId id := by
    intro id hid
    by_cases hc : (∀ id ∈ d.node_index_to_id, ValidPat id) ∧
        d.node_index_to_id ≠ denseIds 1 d.node_index_to_id.length
    · rw [if_pos hc] at hid
      unfold denseIds at hid
      rcases List.mem_map.mp hid with ⟨j, _, rfl⟩
      exact WfId_nId j
    · rw [if_neg hc] at hid
      exact hwf id hid
  have hend : (if (∀ id ∈ d.node_index_to_id, ValidPat id) ∧
      d.node_index_to_id ≠ denseIds 1 d.node_index_to_id.length
    then denseIds 1 d.node_index_to_id.length
    else d.node_index_to_id).Nodup := by
    by_cases hc : (∀ id ∈ d.node_index_to_id, ValidPat id) ∧
        d.node_index_to_id ≠ denseIds 1 d.node_index_to_id.length
    · rw [if_pos hc]
      exact denseIds_nodup _ _
    · rw [if_neg hc]
      exact hnd
  have helen : d.vertices.length = (if (∀ id ∈ d.node_index_to_id, ValidPat id) ∧
      d.node_index_to_id ≠ denseIds 1 d.node_index_to_id.length
    then denseIds 1 d.node_index_to_id.length
    else d.node_index_to_id).length := by
    by_cases hc : (∀ id ∈ d.node_index_to_id, ValidPat id) ∧
        d.node_index_to_id ≠ denseIds 1 d.node_index_to_id.length
    · rw [if_pos hc, denseIds_length]
      exact hlen.symm
    · rw [if_neg hc]
      exact hlen.symm
  rw [serializeDoc_lines d hlen hwf hnd]
  rw [reparse_lines d.vertices _ d.indices hewf hend helen hbnd]
  exact ⟨rfl, rfl, rfl⟩

/-! ## Claim C1: parse-serialize-parse round trip -/

/-- C1 counterexample: the claim as stated is false.  The document
parsed from the single sparse-but-valid vertex line `n5 0 0 0` has
vertex id `n5`, but serializing it triggers the dense renumbering and
re-parsing yields the id `n1`: the vertex ids are not preserved. -/
theorem C1_roundtrip_counterexample :
    (parse_vpg_text ("n5 0 0 0".toList)).node_index_to_id = [("n5".toList)] ∧
    (parse_vpg_text
      (serializeDoc (parse_vpg_text ("n5 0 0 0".toList)))).node_index_to_id =
      [("n1".toList)] ∧
    ¬((parse_vpg_text
        (serializeDoc (parse_vpg_text ("n5 0 0 0".toList)))).node_index_to_id =
      (parse_vpg_text ("n5 0 0 0".toList)).node_index_to_id) := by
  refine ⟨by decide, by decide, by decide⟩

/-- C1 (amended): for every document produced by `parse`, re-parsing
its serialization preserves the vertex positions and the face
connectivity exactly; the vertex ids are preserved verbatim unless all
ids match the `n<digits>` pattern and are not already the dense
sequence `n1..nK`, in which case they come back as exactly that dense
renumbering (so ids are preserved precisely when they are already
dense or at least one of them fails the pattern). -/
theorem C1_parse_serialize_roundtrip (t : List Char) :
    (parse_vpg_text (serializeDoc (parse_vpg_text t))).vertices =
      (parse_vpg_text t).vertices ∧
    (parse_vpg_text (serializeDoc (parse_vpg_text t))).indices =
      (parse_vpg_text t).indices ∧
    (parse_vpg_text (serializeDoc (parse_vpg_text t))).node_index_to_id =
      (if (∀ id ∈ (parse_vpg_text t).node_index_to_id, ValidPat id) ∧
          (parse_vpg_text t).node_index_to_id ≠
            denseIds 1 (parse_vpg_text t).node_index_to_id.length
       then denseIds 1 (parse_vpg_text t).node_index_to_id.length
       else (parse_vpg_text t).node_index_to_id) :=
  roundtrip_of_inv (parse_vpg_text t) (parse_DocInv t)

end VPG
